import Mathlib

/-!
Verification of the temporal bucketing / accordion rendering engine of
`.github/scripts/generate-index.py` (newsletter-master).

The Python functions are shallowly embedded:
* Python machine integers are `Int` (arbitrary precision in Python as well);
  Python `//` is floor division (`Int.fdiv`) and `%` with a positive modulus
  is the nonnegative remainder (`Int.emod`, written `%`).
* Python `dict` / `OrderedDict` values are association lists
  (`List (key × value)`); `d.setdefault(k, dflt)` followed by a mutation of
  the returned value is `updateAssoc k dflt f`, which modifies the value in
  place when the key is present and appends `(k, f dflt)` otherwise.
* `sorted(xs, key=k, reverse=True)` (Timsort: a stable sort) is embedded as
  the stable insertion sort `sSortBy le` with `le a b = (k b ≤ k a)`; any
  two stable sorts for the same comparator agree on every input.
* A Python statement that can raise (`int(...)` on a malformed string,
  list indexing out of range) is embedded in `Option`, `none` standing for
  the raised exception propagating out of the function.
-/

namespace NewsGen

/-- ASCII whitespace stripped by Python `int(str)` (only the ASCII part of
Python's notion of whitespace is modelled; the dates handled by the scripts
are ASCII). -/
def pyWs (c : Char) : Bool :=
  c = ' ' || c = '\t' || c = '\n' || c = '\r' || c = '\x0b' || c = '\x0c'

/-- Value of a digit run in which a single underscore may stand between two
digits, as accepted by Python `int`; `none` when the run is malformed. -/
def digitsVal (acc : Nat) : List Char → Option Nat
  | [] => some acc
  | '_' :: c :: cs =>
      if c.isDigit then digitsVal (acc * 10 + (c.toNat - 48)) cs else none
  | '_' :: [] => none
  | c :: cs =>
      if c.isDigit then digitsVal (acc * 10 + (c.toNat - 48)) cs else none

/-- Embedding of Python `int(s)` for a decimal string: optional surrounding
whitespace, optional sign, then digits (underscores allowed between digits).
`none` models the `ValueError` that `int` raises otherwise. -/
def pyInt (s : String) : Option Int :=
  let cs := ((s.data.dropWhile pyWs).reverse.dropWhile pyWs).reverse
  match cs with
  | '+' :: c :: rest =>
      if c.isDigit then (digitsVal (c.toNat - 48) rest).map Int.ofNat else none
  | '-' :: c :: rest =>
      if c.isDigit then (digitsVal (c.toNat - 48) rest).map (fun n => -(Int.ofNat n))
      else none
  | c :: rest =>
      if c.isDigit then (digitsVal (c.toNat - 48) rest).map Int.ofNat else none
  | [] => none

/-- Python slice `s[a:b]` on a string (clamping, as in Python). -/
def pySlice (s : String) (a b : Nat) : String :=
  String.mk ((s.data.drop a).take (b - a))

def listStartsWith : List Char → List Char → Bool
  | _, [] => true
  | [], _ :: _ => false
  | c :: cs, p :: ps => c == p && listStartsWith cs ps

/-- Replace every non-overlapping occurrence of `p` (non-empty) by `r`,
left to right; `fuel` bounds the recursion by the input length (each step
consumes at least one character). -/
def replaceFuel (p r : List Char) : Nat → List Char → List Char
  | 0, l => l
  | _ + 1, [] => []
  | fuel + 1, c :: cs =>
      if listStartsWith (c :: cs) p then
        r ++ replaceFuel p r fuel (cs.drop (p.length - 1))
      else c :: replaceFuel p r fuel cs

/-- Python `s.replace(old, new)` (replaces every occurrence, left to right,
non-overlapping; the empty pattern, unused by the scripts, is the
identity here). -/
def pyReplace (s old new : String) : String :=
  if old.data.isEmpty then s
  else String.mk (replaceFuel old.data new.data s.data.length s.data)

/-- Python `s.endswith(suffix)`. -/
def pyEndsWith (s suffix : String) : Bool :=
  if suffix.data.length ≤ s.data.length then
    decide (s.data.drop (s.data.length - suffix.data.length) = suffix.data)
  else false

/-- `html.escape(s, quote=True)`: the five successive replacements performed
by the Python standard library, in their order. `chr 39` is the single-quote
character. -/
def html_escape (s : String) : String :=
  let q := String.singleton (Char.ofNat 39)
  pyReplace (pyReplace (pyReplace (pyReplace (pyReplace s "&" "&amp;")
    "<" "&lt;") ">" "&gt;") "\"" "&quot;") q "&#x27;"

/-- Code-point lexicographic strict comparison of character lists: the
comparison Python performs on `str` (and the one Lean's `String` order
performs), written structurally so that it evaluates by reduction. -/
def lexLt : List Char → List Char → Bool
  | _, [] => false
  | [], _ :: _ => true
  | a :: as, b :: bs =>
      if a.toNat < b.toNat then true
      else if a.toNat = b.toNat then lexLt as bs else false

/-- Python `a < b` on strings. -/
def strLt (a b : String) : Bool := lexLt a.data b.data

/-- Python `a <= b` on strings. -/
def strLe (a b : String) : Bool := !(strLt b a)

/-! ### Stable sorting (Python `sorted` / `list.sort`) -/

/-- Insert `x` into `l`, before the first element `y` with `le x y`. -/
def sInsert (le : α → α → Bool) (x : α) : List α → List α
  | [] => [x]
  | y :: ys => if le x y then x :: y :: ys else y :: sInsert le x ys

/-- Stable insertion sort: elements equivalent under `le` keep their input
order, so this agrees with Python's (stable) `sorted` on every input for a
comparator induced by a key function. -/
def sSortBy (le : α → α → Bool) : List α → List α
  | [] => []
  | x :: xs => sInsert le x (sSortBy le xs)

/-! ### Association lists (Python dict / OrderedDict) -/

section Assoc

variable {κ β : Type} [DecidableEq κ]

/-- Keys of an association list, in order. -/
def keysOf (l : List (κ × β)) : List κ := l.map Prod.fst

/-- `d[k]` lookup: first binding of `k`. -/
def lookupA (l : List (κ × β)) (k : κ) : Option β :=
  match l with
  | [] => none
  | (k', v) :: rest => if k' = k then some v else lookupA rest k

/-- `d.setdefault(k, dflt)` followed by an in-place mutation `f` of the
returned value: modify the existing binding in place, or append a new
binding `(k, f dflt)` at the end (insertion order of Python dicts). -/
def updateAssoc (k : κ) (dflt : β) (f : β → β) : List (κ × β) → List (κ × β)
  | [] => [(k, f dflt)]
  | (k', v) :: rest =>
      if k' = k then (k', f v) :: rest else (k', v) :: updateAssoc k dflt f rest

/-- One pass of keyed grouping: fold `updateAssoc` over `elems`, keying each
element by `key` and combining with `upd`. -/
def groupFold (key : σ → κ) (dflt : β) (upd : β → σ → β)
    (elems : List σ) (m : List (κ × β)) : List (κ × β) :=
  elems.foldl (fun m e => updateAssoc (key e) dflt (fun b => upd b e) m) m

end Assoc

/-! ### The date bucketer (`_shikinen_range`, `_time_hierarchy`) -/

/-- `century = (year - 1) // 100 + 1` (line 229 of the script). -/
def centuryOf (year : Int) : Int := (year - 1).fdiv 100 + 1

/-- `_shikinen_range(year)` (lines 211-217). -/
def shikinen_range (year : Int) : Int × Int :=
  let century := (year - 1).fdiv 100 + 1
  let century_start := (century - 1) * 100 + 1
  let shikinen_idx := (year - century_start).fdiv 20
  let shikinen_start := century_start + shikinen_idx * 20
  let shikinen_end := shikinen_start + 19
  (shikinen_start, shikinen_end)

/-- `year = int(d[0:4]); month = int(d[5:7])` — `none` when either `int`
call raises (lines 227-228). -/
def parseYM (d : String) : Option (Int × Int) := do
  let y ← pyInt (pySlice d 0 4)
  let m ← pyInt (pySlice d 5 7)
  pure (y, m)

/-- The guard `if not d or len(d) < 7: continue` (lines 224-226). -/
def skipDate (d : String) : Bool := d = "" || d.length < 7

/-- The (year, month) pair an item contributes, `none` when the item is
skipped by the guard or its fields do not parse. -/
def dateParsed (d : String) : Option (Int × Int) :=
  if skipDate d then none else parseYM d

/-- Month level: month key ↦ list of items (the leaf lists). -/
abbrev MonthMap (α : Type) := List (Int × List α)
/-- Year level: year key ↦ month map. -/
abbrev YearMap (α : Type) := List (Int × MonthMap α)
/-- Shikinen (renewal-cycle) level: `(start, end)` key ↦ year map. -/
abbrev ShMap (α : Type) := List ((Int × Int) × YearMap α)
/-- Century level: the whole tree. -/
abbrev Tree (α : Type) := List (Int × ShMap α)

/-- `.setdefault(m_key, []).append(item)` for an already-parsed entry
`e = ((year, month), item)`. -/
def insert_m (ml : MonthMap α) (e : (Int × Int) × α) : MonthMap α :=
  updateAssoc e.1.2 [] (fun l => l ++ [e.2]) ml

/-- `.setdefault(y_key, OrderedDict())` then the month-level insertion. -/
def insert_y (yl : YearMap α) (e : (Int × Int) × α) : YearMap α :=
  updateAssoc e.1.1 [] (fun ml => insert_m ml e) yl

/-- `.setdefault(sh_key, OrderedDict())` then the year-level insertion. -/
def insert_sh (sl : ShMap α) (e : (Int × Int) × α) : ShMap α :=
  updateAssoc (shikinen_range e.1.1) [] (fun yl => insert_y yl e) sl

/-- `tree.setdefault(c_key, OrderedDict())` then the lower-level insertions:
the full `setdefault` chain of lines 237-240. -/
def insert_c (t : Tree α) (e : (Int × Int) × α) : Tree α :=
  updateAssoc (centuryOf e.1.1) [] (fun sl => insert_sh sl e) t

/-- The loop body of `_time_hierarchy` for one item: skip on the guard,
raise (`none`) when `int` raises, otherwise insert along the four-key path. -/
def buildStep (dk : α → String) (t : Tree α) (item : α) : Option (Tree α) :=
  let d := dk item
  if skipDate d then some t
  else (parseYM d).map (fun ym => insert_c t (ym, item))

/-- The `for item in items` loop of `_time_hierarchy` (lines 223-240). -/
def buildLoop (dk : α → String) (t : Tree α) (items : List α) : Option (Tree α) :=
  items.foldlM (buildStep dk) t

/-- Pure restatement of the loop on pre-parsed entries (used in proofs). -/
def pureBuild (t : Tree α) (v : List ((Int × Int) × α)) : Tree α :=
  v.foldl insert_c t

/-- The subtree builders reached below one century / cycle / year key. -/
def buildSh (v : List ((Int × Int) × α)) : ShMap α := v.foldl insert_sh []

def buildY (v : List ((Int × Int) × α)) : YearMap α := v.foldl insert_y []

def buildM (v : List ((Int × Int) × α)) : MonthMap α := v.foldl insert_m []

/-- Pre-parsed entries of an item list: `((year, month), item)` for each item
whose date is retained and parses. -/
def validOf (dk : α → String) (items : List α) : List ((Int × Int) × α) :=
  items.filterMap (fun it => (dateParsed (dk it)).map (fun ym => (ym, it)))

/-- Descending comparator on `Int` keys (`sorted(keys, reverse=True)`). -/
def intDesc (a b : Int) : Bool := b ≤ a

/-- Python tuple `≤` on `(Int, Int)` (lexicographic). -/
def pairLe (p q : Int × Int) : Bool :=
  p.1 < q.1 || (p.1 = q.1 && p.2 ≤ q.2)

/-- Descending comparator on tuple keys. -/
def pairDesc (a b : Int × Int) : Bool := pairLe b a

/-- `for m_key in sorted(..., reverse=True): sorted_y[m_key] = ...`
(lines 250-251). -/
def sort_months (ml : MonthMap α) : MonthMap α :=
  (sSortBy intDesc (keysOf ml)).map (fun k => (k, (lookupA ml k).getD []))

/-- Lines 248-252: years sorted descending, each month map sorted below. -/
def sort_years (yl : YearMap α) : YearMap α :=
  (sSortBy intDesc (keysOf yl)).map
    (fun k => (k, sort_months ((lookupA yl k).getD [])))

/-- Lines 246-253: cycles sorted descending (tuple order), recursively. -/
def sort_sh (sl : ShMap α) : ShMap α :=
  (sSortBy pairDesc (keysOf sl)).map
    (fun k => (k, sort_years ((lookupA sl k).getD [])))

/-- Lines 243-254: the full sorting pass building `sorted_tree`. -/
def sort_tree (t : Tree α) : Tree α :=
  (sSortBy intDesc (keysOf t)).map
    (fun k => (k, sort_sh ((lookupA t k).getD [])))

/-- `_time_hierarchy(items, date_key, s)` (lines 220-256): build the nested
tree, then sort every level descending. `none` models the `ValueError`
raised when a retained date has a non-integer year or month field. -/
def time_hierarchy (dk : α → String) (items : List α) : Option (Tree α) :=
  (buildLoop dk [] items).map sort_tree

/-! ### `_count_items` (lines 259-263), one function per level -/

def count_items_m (ml : MonthMap α) : Nat := (ml.map (fun p => p.2.length)).sum
def count_items_y (yl : YearMap α) : Nat := (yl.map (fun p => count_items_m p.2)).sum
def count_items_sh (sl : ShMap α) : Nat := (sl.map (fun p => count_items_y p.2)).sum
def count_items_tree (t : Tree α) : Nat := (t.map (fun p => count_items_sh p.2)).sum

/-- All leaf items of a tree, in traversal order. -/
def entriesOf (t : Tree α) : List α :=
  t.flatMap (fun c => c.2.flatMap (fun sh => sh.2.flatMap (fun y => y.2.flatMap (fun m => m.2))))

/-- Four-key path lookup: century, cycle, year, month. -/
def lookupLeaf (t : Tree α) (c : Int) (sh : Int × Int) (y m : Int) : Option (List α) :=
  (((lookupA t c).bind (fun sl => lookupA sl sh)).bind
    (fun yl => lookupA yl y)).bind (fun ml => lookupA ml m)

/-- The input items whose date parses to exactly `(y, m)`, in input order. -/
def itemsAt (dk : α → String) (items : List α) (y m : Int) : List α :=
  items.filter (fun it => decide (dateParsed (dk it) = some (y, m)))

/-- Keys occurring at every level, dropping the items (the "shape" of the
tree: sibling keys and their order at each of the four levels). -/
def shape_y (yl : YearMap α) : List (Int × List Int) :=
  yl.map (fun p => (p.1, keysOf p.2))

def shape_sh (sl : ShMap α) : List ((Int × Int) × List (Int × List Int)) :=
  sl.map (fun p => (p.1, shape_y p.2))

def shape_tree (t : Tree α) : List (Int × List ((Int × Int) × List (Int × List Int))) :=
  t.map (fun p => (p.1, shape_sh p.2))

/-- Strictly descending list of integer keys. -/
def strictDescI (l : List Int) : Prop := l.Pairwise (fun a b => b < a)

/-- Strictly descending by cycle start. -/
def strictDescP (l : List (Int × Int)) : Prop := l.Pairwise (fun a b => b.1 < a.1)

/-- Sibling keys strictly descending at every level of the tree. -/
def tree_strict (t : Tree α) : Prop :=
  strictDescI (keysOf t) ∧ ∀ p ∈ t, strictDescP (keysOf p.2) ∧
    ∀ q ∈ p.2, strictDescI (keysOf q.2) ∧ ∀ r ∈ q.2, strictDescI (keysOf r.2)

/-- Keys duplicate-free at every level of the tree. -/
def nodupT (t : Tree α) : Prop :=
  (keysOf t).Nodup ∧ ∀ p ∈ t, (keysOf p.2).Nodup ∧
    ∀ q ∈ p.2, (keysOf q.2).Nodup ∧ ∀ r ∈ q.2, (keysOf r.2).Nodup

/-- Sum of `g` over the values of an association list. -/
def sumVals (g : β → Nat) (l : List (κ × β)) : Nat := (l.map (fun p => g p.2)).sum

/-! ### Locale tables and label formatting -/

/-- The fields of the module-level `STRINGS` tables used by the core. -/
structure Strings where
  lang : String
  century_suffix : String
  year_suffix : String
  months : List String
deriving DecidableEq, Repr

def jaStrings : Strings :=
  { lang := "ja", century_suffix := "世紀", year_suffix := "年",
    months := ["1月", "2月", "3月", "4月", "5月", "6月", "7月", "8月", "9月",
               "10月", "11月", "12月"] }

def enStrings : Strings :=
  { lang := "en", century_suffix := "", year_suffix := "",
    months := ["Jan", "Feb", "Mar", "Apr", "May", "Jun", "Jul", "Aug", "Sep",
               "Oct", "Nov", "Dec"] }

/-- `_century_label` (lines 184-198). -/
def century_label (century : Int) (s : Strings) : String :=
  if s.lang = "ja" then toString century ++ s.century_suffix
  else
    let suffix :=
      if 11 ≤ century % 100 ∧ century % 100 ≤ 13 then "th"
      else if century % 10 = 1 then "st"
      else if century % 10 = 2 then "nd"
      else if century % 10 = 3 then "rd"
      else "th"
    toString century ++ suffix ++ " century"

/-- `_year_label` (lines 201-204). -/
def year_label (year : Int) (s : Strings) : String :=
  if s.lang = "ja" then toString year ++ s.year_suffix else toString year

/-- `_month_label` (lines 207-208): `s["months"][month - 1]`, with Python
list-index semantics (a negative index counts from the end; an index out of
range raises, modelled as `none`). -/
def month_label (month : Int) (s : Strings) : Option String :=
  let i := month - 1
  if 0 ≤ i then s.months.get? i.toNat
  else if 0 ≤ i + s.months.length then s.months.get? (i + s.months.length).toNat
  else none

/-- The f-string for the cycle label, `"{start}–{end}"` (en dash). -/
def sh_label (p : Int × Int) : String := toString p.1 ++ "–" ++ toString p.2

/-- `_group_count_label` (lines 322-326). -/
def group_count_label (count : Nat) (s : Strings) : String :=
  if s.lang = "ja" then toString count ++ "件"
  else toString count ++ " item" ++ (if count != 1 then "s" else "")

/-! ### The accordion renderer (`_render_time_groups`, lines 266-313)

The Python function appends HTML strings to a flat `parts` list.  The
embedding produces the same flat sequence, one `Part` per `parts.append`:
`Part.group` carries exactly the data interpolated into the opening
`<div class="time-group…"><button …>` f-string (level name, the open
class — `" open"` or `""` —, the escaped label and the count text),
`Part.item` is one appended `render_item(item)` fragment, and `Part.close`
is the trailing `'</div></div>'`. -/

inductive Part (β : Type) where
  | group (level open_class label count_text : String)
  | item (frag : β)
  | close
deriving DecidableEq, Repr

/-- Loop over the month level. `single` is `single_child` for this sibling
list, `i` the `enumerate` index, `is_first` the flag passed from the parent
(`first_at_level = (i == 0) and is_first`). -/
def render_m (ri : α → β) (s : Strings) (collapsed : Bool) (single : Bool) :
    MonthMap α → Nat → Bool → Option (List (Part β))
  | [], _, _ => some []
  | (k, items) :: rest, i, is_first => do
      let first_at_level := (i == 0) && is_first
      let open_class :=
        if collapsed then "" else if first_at_level || single then " open" else ""
      let label ← month_label k s
      let tailP ← render_m ri s collapsed single rest (i + 1) is_first
      pure (Part.group "month" open_class (html_escape label)
              (group_count_label items.length s)
            :: (items.map (fun it => Part.item (ri it)) ++ (Part.close :: tailP)))

/-- Loop over the year level; children rendered with `first_at_level`. -/
def render_y (ri : α → β) (s : Strings) (collapsed : Bool) (single : Bool) :
    YearMap α → Nat → Bool → Option (List (Part β))
  | [], _, _ => some []
  | (k, ml) :: rest, i, is_first => do
      let first_at_level := (i == 0) && is_first
      let open_class :=
        if collapsed then "" else if first_at_level || single then " open" else ""
      let children ← render_m ri s collapsed (ml.length == 1) ml 0 first_at_level
      let tailP ← render_y ri s collapsed single rest (i + 1) is_first
      pure (Part.group "year" open_class (html_escape (year_label k s))
              (group_count_label (count_items_m ml) s)
            :: (children ++ (Part.close :: tailP)))

/-- Loop over the shikinen (cycle) level. -/
def render_sh (ri : α → β) (s : Strings) (collapsed : Bool) (single : Bool) :
    ShMap α → Nat → Bool → Option (List (Part β))
  | [], _, _ => some []
  | (k, yl) :: rest, i, is_first => do
      let first_at_level := (i == 0) && is_first
      let open_class :=
        if collapsed then "" else if first_at_level || single then " open" else ""
      let children ← render_y ri s collapsed (yl.length == 1) yl 0 first_at_level
      let tailP ← render_sh ri s collapsed single rest (i + 1) is_first
      pure (Part.group "shikinen" open_class (html_escape (sh_label k))
              (group_count_label (count_items_y yl) s)
            :: (children ++ (Part.close :: tailP)))

/-- Loop over the century level. -/
def render_c (ri : α → β) (s : Strings) (collapsed : Bool) (single : Bool) :
    Tree α → Nat → Bool → Option (List (Part β))
  | [], _, _ => some []
  | (k, sl) :: rest, i, is_first => do
      let first_at_level := (i == 0) && is_first
      let open_class :=
        if collapsed then "" else if first_at_level || single then " open" else ""
      let children ← render_sh ri s collapsed (sl.length == 1) sl 0 first_at_level
      let tailP ← render_c ri s collapsed single rest (i + 1) is_first
      pure (Part.group "century" open_class (html_escape (century_label k s))
              (group_count_label (count_items_sh sl) s)
            :: (children ++ (Part.close :: tailP)))

/-- `_render_time_groups(tree, render_item, s, collapsed)`: the initial call
is `_render(tree, 0, True)`.  (The final `"\n".join(parts)` is the identity
on the information content of `parts` and is not modelled.) -/
def render_time_groups (t : Tree α) (ri : α → β) (s : Strings)
    (collapsed : Bool) : Option (List (Part β)) :=
  render_c ri s collapsed (t.length == 1) t 0 true

/-- `Part.group` annotated with the group's position: `path` is the list of
`enumerate` indices from the root down to this group (its own index last)
and `siblings` the length of its sibling key list.  Used to state the
open/closed rule; `eraseA` projects back to the rendered parts. -/
inductive APart (β : Type) where
  | group (level open_class label count_text : String)
      (path : List Nat) (siblings : Nat)
  | item (frag : β)
  | close
deriving DecidableEq, Repr

def eraseA : APart β → Part β
  | .group lv oc lb ct _ _ => .group lv oc lb ct
  | .item f => .item f
  | .close => .close

def arender_m (ri : α → β) (s : Strings) (collapsed : Bool) (single : Bool)
    (sibs : Nat) (pfx : List Nat) :
    MonthMap α → Nat → Bool → Option (List (APart β))
  | [], _, _ => some []
  | (k, items) :: rest, i, is_first => do
      let first_at_level := (i == 0) && is_first
      let open_class :=
        if collapsed then "" else if first_at_level || single then " open" else ""
      let label ← month_label k s
      let tailP ← arender_m ri s collapsed single sibs pfx rest (i + 1) is_first
      pure (APart.group "month" open_class (html_escape label)
              (group_count_label items.length s) (pfx ++ [i]) sibs
            :: (items.map (fun it => APart.item (ri it)) ++ (APart.close :: tailP)))

def arender_y (ri : α → β) (s : Strings) (collapsed : Bool) (single : Bool)
    (sibs : Nat) (pfx : List Nat) :
    YearMap α → Nat → Bool → Option (List (APart β))
  | [], _, _ => some []
  | (k, ml) :: rest, i, is_first => do
      let first_at_level := (i == 0) && is_first
      let open_class :=
        if collapsed then "" else if first_at_level || single then " open" else ""
      let children ← arender_m ri s collapsed (ml.length == 1) ml.length
        (pfx ++ [i]) ml 0 first_at_level
      let tailP ← arender_y ri s collapsed single sibs pfx rest (i + 1) is_first
      pure (APart.group "year" open_class (html_escape (year_label k s))
              (group_count_label (count_items_m ml) s) (pfx ++ [i]) sibs
            :: (children ++ (APart.close :: tailP)))

def arender_sh (ri : α → β) (s : Strings) (collapsed : Bool) (single : Bool)
    (sibs : Nat) (pfx : List Nat) :
    ShMap α → Nat → Bool → Option (List (APart β))
  | [], _, _ => some []
  | (k, yl) :: rest, i, is_first => do
      let first_at_level := (i == 0) && is_first
      let open_class :=
        if collapsed then "" else if first_at_level || single then " open" else ""
      let children ← arender_y ri s collapsed (yl.length == 1) yl.length
        (pfx ++ [i]) yl 0 first_at_level
      let tailP ← arender_sh ri s collapsed single sibs pfx rest (i + 1) is_first
      pure (APart.group "shikinen" open_class (html_escape (sh_label k))
              (group_count_label (count_items_y yl) s) (pfx ++ [i]) sibs
            :: (children ++ (APart.close :: tailP)))

def arender_c (ri : α → β) (s : Strings) (collapsed : Bool) (single : Bool)
    (sibs : Nat) (pfx : List Nat) :
    Tree α → Nat → Bool → Option (List (APart β))
  | [], _, _ => some []
  | (k, sl) :: rest, i, is_first => do
      let first_at_level := (i == 0) && is_first
      let open_class :=
        if collapsed then "" else if first_at_level || single then " open" else ""
      let children ← arender_sh ri s collapsed (sl.length == 1) sl.length
        (pfx ++ [i]) sl 0 first_at_level
      let tailP ← arender_c ri s collapsed single sibs pfx rest (i + 1) is_first
      pure (APart.group "century" open_class (html_escape (century_label k s))
              (group_count_label (count_items_sh sl) s) (pfx ++ [i]) sibs
            :: (children ++ (APart.close :: tailP)))

/-- Position-annotated rendering of the whole tree. -/
def arender_time_groups (t : Tree α) (ri : α → β) (s : Strings)
    (collapsed : Bool) : Option (List (APart β)) :=
  arender_c ri s collapsed (t.length == 1) t.length [] t 0 true

/-- The item fragments of a part list, in order. -/
def item_frags (ps : List (Part β)) : List β :=
  ps.filterMap (fun p => match p with | Part.item f => some f | _ => none)

/-! ### RecentSelector and the issue scan -/

/-- Descending-by-key comparator for Python `sorted(…, key=dk, reverse=True)`. -/
def keyDesc (dk : α → String) (a b : α) : Bool := strLe (dk b) (dk a)

/-- Ascending string comparator for Python `sorted(...)`. -/
def strAsc (a b : String) : Bool := strLe a b

/-- `sorted(issues, key=lambda x: x[date_key], reverse=True)[:10]`
(lines 799-800 and, for the index page, 727-728). -/
def recent_items (dk : α → String) (items : List α) : List α :=
  (sSortBy (keyDesc dk) items).take 10

def PAGES_BASE : String := "https://tokistorage.github.io/newsletter-master"
def PLAY_BASE : String := "https://tokistorage.github.io/qr/play.html"

/-- One issue row as assembled by `scan_issues` (lines 168-175). -/
structure Issue where
  serial_str : String
  title : String
  date : String
  zip_url : String
  pdf_url : String
  play_url : String
deriving DecidableEq, Repr

/-- The filesystem- and zip-reading collaborators of `scan_issues`,
abstracted as functions: `manifest sid fname` is the `(title, createdAt,
tz)` triple extracted from the zip's `manifest.json` (defaults `("", "",
"")` when unreadable — the `except` branch prints a warning and keeps
going), `fmtDate` is `_format_datetime` (datetime library), and `hasPdf`
is the `os.path.exists` check for the companion PDF. -/
structure ScanEnv where
  manifest : String → String → String × String × String
  fmtDate : String → String → String
  hasPdf : String → String → Bool

/-- Lines 136-175: build one issue record from a zip file name. -/
def mk_issue (env : ScanEnv) (series_id fname : String) : Issue :=
  let serial := pyReplace fname ".zip" ""
  let tdz := env.manifest series_id fname
  let date_display := env.fmtDate tdz.2.1 tdz.2.2
  let pdf_name := "TQ-" ++ serial ++ ".pdf"
  let has_pdf := env.hasPdf series_id pdf_name
  let zu := PAGES_BASE ++ "/zips/" ++ series_id ++ "/" ++ fname
  let pu := if has_pdf then PAGES_BASE ++ "/output/" ++ series_id ++ "/" ++ pdf_name else ""
  { serial_str := serial, title := tdz.1, date := date_display,
    zip_url := zu, pdf_url := pu,
    play_url := PLAY_BASE ++ "?zip=" ++ zu ++ (if pu ≠ "" then "&pdf=" ++ pu else "") }

/-- The issue list of one series directory before the sort at line 177:
each file ending in `.zip`, in directory-scan order. -/
def raw_issues (env : ScanEnv) (series_id : String) (files : List String) : List Issue :=
  (files.filter (fun f => pyEndsWith f ".zip")).map (mk_issue env series_id)

/-- `issues.sort(key=lambda x: x["serial_str"], reverse=True)` (line 177). -/
def serialDesc (a b : Issue) : Bool := strLe b.serial_str a.serial_str

/-- `scan_issues` (lines 123-181) over an abstract directory listing
`dirs : series directory name ↦ file names` (the `os.listdir` results; the
`isdir` filters are part of producing that listing).  A series is included
only when its issue list is non-empty (lines 178-179). -/
def scan_issues (env : ScanEnv) (dirs : List (String × List String)) :
    List (String × List Issue) :=
  (sSortBy (fun a b => strAsc a.1 b.1) dirs).filterMap (fun sd =>
    let issues := sSortBy serialDesc (raw_issues env sd.1 sd.2)
    if issues.isEmpty then none else some (sd.1, issues))

/-- One series card item of the top-level index (lines 716-721). -/
structure Card where
  series_id : String
  series_name : String
  count : Nat
  date : String
deriving DecidableEq, Repr

/-- Lines 711-721 of `generate_index_html`: the card items, one per series
of `issues_by_series`, in ascending id order.  `series_map` maps a series
id to its optional `seriesName` catalog entry. -/
def series_items_of (series_map : List (String × Option String))
    (ibs : List (String × List Issue)) : List Card :=
  (sSortBy strAsc (keysOf ibs)).map (fun sid =>
    let issues := (lookupA ibs sid).getD []
    { series_id := sid,
      series_name := ((lookupA series_map sid).getD none).getD sid,
      count := issues.length,
      date := ((issues.head?).map (fun i => i.date)).getD "" })

/-- The series ids for which `main` (lines 860-871) generates detail pages. -/
def series_page_ids (ibs : List (String × List Issue)) : List String :=
  sSortBy strAsc (keysOf ibs)

/-! ### Spec-side definitions (stated from the claims, for comparison) -/

/-- The claim's ordinal rule: suffix chosen by the last digit. -/
def lastDigitSuffix (d : Int) : String :=
  if d = 1 then "st" else if d = 2 then "nd" else if d = 3 then "rd" else "th"

/-- The claim's English ordinal suffix: 11–13 mod 100 take "th", otherwise
the last digit decides. -/
def specCenturySuffix (c : Int) : String :=
  if 11 ≤ c % 100 ∧ c % 100 ≤ 13 then "th" else lastDigitSuffix (c % 10)

/-! ### Concrete inputs used to instantiate the theorems -/

/-- The §8 scenario: three dates spanning two cycles of century 21. -/
def wItems : List String := ["2024-03-01", "2023-11-01", "2044-01-01"]

/-- The tree built from `wItems` (date accessor: identity). -/
def wTree : Tree String := (time_hierarchy (fun d => d) wItems).getD []

/-- A permutation of `wItems`. -/
def wItemsP : List String := ["2044-01-01", "2024-03-01", "2023-11-01"]

def wTreeP : Tree String := (time_hierarchy (fun d => d) wItemsP).getD []

/-- Parts of the annotated render of `wTree` (auto-open rules active). -/
def wParts : List (APart String) :=
  (arender_time_groups wTree (fun d => d) enStrings false).getD []

/-- Parts of the annotated render of `wTree` with `collapsed=True`. -/
def wPartsC : List (APart String) :=
  (arender_time_groups wTree (fun d => d) enStrings true).getD []

/-- A scan environment whose zips all carry the same January 2025 date. -/
def wEnv : ScanEnv :=
  { manifest := fun _ _ => ("T", "2025-01-15", ""),
    fmtDate := fun d _ => d,
    hasPdf := fun _ _ => false }

/-- Two zip files in directory-scan order: ascending serials. -/
def wDirs : List (String × List String) :=
  [("s1", ["TQ-0001.zip", "TQ-0002.zip"]), ("empty1", ["readme.txt"])]

/-- The issues scanned for series `s1`, their tree, and its render. -/
def wIssuesS1 : List Issue := (lookupA (scan_issues wEnv wDirs) "s1").getD []

def wTreeS1 : Tree Issue :=
  (time_hierarchy (fun i : Issue => i.date) wIssuesS1).getD []

def wPartsS1 : List (Part String) :=
  (render_time_groups wTreeS1 (fun i : Issue => i.serial_str)
    enStrings true).getD []

/-- A catalog with an entry for the zip-less series. -/
def wSeriesMap : List (String × Option String) :=
  [("empty1", some "Empty Series")]

/-! ## Lemmas: the stable sort -/

theorem sInsert_perm (le : α → α → Bool) (x : α) (l : List α) :
    (sInsert le x l).Perm (x :: l) := by
  induction l with
  | nil => simp [sInsert]
  | cons y ys ih =>
      simp only [sInsert]
      split
      · exact List.Perm.refl _
      · exact (ih.cons y).trans (List.Perm.swap x y ys)

theorem sSortBy_perm (le : α → α → Bool) (l : List α) :
    (sSortBy le l).Perm l := by
  induction l with
  | nil => simp [sSortBy]
  | cons x xs ih => exact (sInsert_perm le x _).trans (ih.cons x)

theorem mem_sInsert {le : α → α → Bool} {x a : α} {l : List α} :
    a ∈ sInsert le x l ↔ a = x ∨ a ∈ l := by
  rw [(sInsert_perm le x l).mem_iff, List.mem_cons]

theorem sInsert_pairwise {le : α → α → Bool}
    (htot : ∀ a b, le a b = false → le b a = true)
    (htrans : ∀ a b c, le a b = true → le b c = true → le a c = true)
    {x : α} {l : List α} (hl : l.Pairwise (fun a b => le a b = true)) :
    (sInsert le x l).Pairwise (fun a b => le a b = true) := by
  induction l with
  | nil => simp [sInsert]
  | cons y ys ih =>
      rw [List.pairwise_cons] at hl
      simp only [sInsert]
      by_cases h : le x y = true
      · rw [if_pos h, List.pairwise_cons]
        refine ⟨?_, List.pairwise_cons.mpr hl⟩
        intro b hb
        rcases List.mem_cons.mp hb with rfl | hb
        · exact h
        · exact htrans x y b h (hl.1 b hb)
      · rw [if_neg h, List.pairwise_cons]
        refine ⟨?_, ih hl.2⟩
        intro b hb
        rcases mem_sInsert.mp hb with rfl | hb
        · exact htot _ _ (Bool.eq_false_iff.mpr h)
        · exact hl.1 b hb

theorem sSortBy_pairwise {le : α → α → Bool}
    (htot : ∀ a b, le a b = false → le b a = true)
    (htrans : ∀ a b c, le a b = true → le b c = true → le a c = true)
    (l : List α) :
    (sSortBy le l).Pairwise (fun a b => le a b = true) := by
  induction l with
  | nil => simp [sSortBy]
  | cons x xs ih => exact sInsert_pairwise htot htrans ih

theorem filter_sInsert_pos {le : α → α → Bool} {p : α → Bool} {x : α}
    (hx : p x = true) (hcls : ∀ y, p y = true → le x y = true) (l : List α) :
    (sInsert le x l).filter p = x :: l.filter p := by
  induction l with
  | nil => simp [sInsert, hx]
  | cons y ys ih =>
      simp only [sInsert]
      by_cases h : le x y = true
      · rw [if_pos h]; simp [hx]
      · rw [if_neg h]
        have hy : p y = false := by
          cases hpy : p y
          · rfl
          · exact absurd (hcls y hpy) h
        simp [List.filter_cons, hy, ih]

theorem filter_sInsert_neg {le : α → α → Bool} {p : α → Bool} {x : α}
    (hx : p x = false) (l : List α) :
    (sInsert le x l).filter p = l.filter p := by
  induction l with
  | nil => simp [sInsert, hx]
  | cons y ys ih =>
      simp only [sInsert]
      by_cases h : le x y = true
      · rw [if_pos h]; simp [hx]
      · rw [if_neg h]; simp [List.filter_cons, ih]

/-- Stability of the sort: the subsequence of elements of one comparator
equivalence class (all related both ways, e.g. one key value) is unchanged. -/
theorem sSortBy_filter_stable {le : α → α → Bool} {p : α → Bool}
    (hcls : ∀ a b, p a = true → p b = true → le a b = true) (l : List α) :
    (sSortBy le l).filter p = l.filter p := by
  induction l with
  | nil => simp [sSortBy]
  | cons x xs ih =>
      simp only [sSortBy]
      by_cases hx : p x = true
      · rw [filter_sInsert_pos hx (fun y hy => hcls x y hx hy), ih]
        simp [List.filter_cons, hx]
      · rw [filter_sInsert_neg (Bool.eq_false_iff.mpr hx), ih]
        simp [List.filter_cons, Bool.eq_false_iff.mpr hx]

/-- Two duplicate-free lists with the same members sort to the same list. -/
theorem sSortBy_eq_of_mem_iff {le : α → α → Bool}
    (htot : ∀ a b, le a b = false → le b a = true)
    (htrans : ∀ a b c, le a b = true → le b c = true → le a c = true)
    (hanti : ∀ a b, le a b = true → le b a = true → a = b)
    {ks ks' : List α} (h₁ : ks.Nodup) (h₂ : ks'.Nodup)
    (hm : ∀ k, k ∈ ks ↔ k ∈ ks') : sSortBy le ks = sSortBy le ks' := by
  have hperm : ks.Perm ks' := (List.perm_ext_iff_of_nodup h₁ h₂).2 hm
  have hp : (sSortBy le ks).Perm (sSortBy le ks') :=
    (sSortBy_perm le ks).trans (hperm.trans (sSortBy_perm le ks').symm)
  haveI : IsAntisymm α (fun a b => le a b = true) := ⟨fun a b => hanti a b⟩
  exact List.eq_of_perm_of_sorted hp
    (sSortBy_pairwise htot htrans ks) (sSortBy_pairwise htot htrans ks')

/-! Comparator facts for the concrete comparators in use. -/

theorem intDesc_total : ∀ a b : Int, intDesc a b = false → intDesc b a = true := by
  intro a b h
  simp only [intDesc, decide_eq_true_eq, decide_eq_false_iff_not, not_le] at *
  omega

theorem intDesc_trans : ∀ a b c : Int,
    intDesc a b = true → intDesc b c = true → intDesc a c = true := by
  intro a b c h₁ h₂
  simp only [intDesc, decide_eq_true_eq] at *
  omega

theorem intDesc_anti : ∀ a b : Int,
    intDesc a b = true → intDesc b a = true → a = b := by
  intro a b h₁ h₂
  simp only [intDesc, decide_eq_true_eq] at *
  omega

theorem pairDesc_total : ∀ a b : Int × Int,
    pairDesc a b = false → pairDesc b a = true := by
  intro a b h
  simp only [pairDesc, pairLe, Bool.or_eq_true, Bool.and_eq_true,
    decide_eq_true_eq, Bool.or_eq_false_iff, Bool.and_eq_false_iff,
    decide_eq_false_iff_not, not_lt] at *
  omega

theorem pairDesc_trans : ∀ a b c : Int × Int,
    pairDesc a b = true → pairDesc b c = true → pairDesc a c = true := by
  intro a b c h₁ h₂
  simp only [pairDesc, pairLe, Bool.or_eq_true, Bool.and_eq_true,
    decide_eq_true_eq] at *
  omega

theorem pairDesc_anti : ∀ a b : Int × Int,
    pairDesc a b = true → pairDesc b a = true → a = b := by
  intro a b h₁ h₂
  simp only [pairDesc, pairLe, Bool.or_eq_true, Bool.and_eq_true,
    decide_eq_true_eq] at *
  have : a.1 = b.1 ∧ a.2 = b.2 := by omega
  exact Prod.ext this.1 this.2

/-! Facts about the code-point comparison, and its agreement with the
`String` linear order. -/

theorem lexLt_irrefl : ∀ a : List Char, lexLt a a = false := by
  intro a
  induction a with
  | nil => rfl
  | cons x xs ih => simp [lexLt, ih]

theorem lexLt_asymm : ∀ {a b : List Char},
    lexLt a b = true → lexLt b a = false := by
  intro a
  induction a with
  | nil =>
      intro b h
      cases b with
      | nil => simpa [lexLt] using h
      | cons y ys => rfl
  | cons x xs ih =>
      intro b h
      cases b with
      | nil => simpa [lexLt] using h
      | cons y ys =>
          simp only [lexLt] at h ⊢
          by_cases h1 : x.toNat < y.toNat
          · rw [if_neg (by omega), if_neg (by omega)]
          · rw [if_neg h1] at h
            by_cases h2 : x.toNat = y.toNat
            · rw [if_pos h2] at h
              rw [if_neg (by omega), if_pos (by omega)]
              exact ih h
            · rw [if_neg h2] at h
              exact absurd h (by simp)

theorem lexLt_connex : ∀ {a b : List Char},
    lexLt a b = false → lexLt b a = false → a = b := by
  intro a
  induction a with
  | nil =>
      intro b h _
      cases b with
      | nil => rfl
      | cons y ys => simp [lexLt] at h
  | cons x xs ih =>
      intro b h h'
      cases b with
      | nil => simp [lexLt] at h'
      | cons y ys =>
          simp only [lexLt] at h h'
          by_cases h1 : x.toNat < y.toNat
          · rw [if_pos h1] at h
            exact absurd h (by simp)
          · rw [if_neg h1] at h
            by_cases h2 : x.toNat = y.toNat
            · rw [if_pos h2] at h
              rw [if_neg (by omega), if_pos (by omega)] at h'
              have hx : x = y := Char.ext (UInt32.ext h2)
              rw [hx, ih h h']
            · rw [if_pos (by omega)] at h'
              exact absurd h' (by simp)

theorem lexLt_trans : ∀ {a b c : List Char},
    lexLt a b = true → lexLt b c = true → lexLt a c = true := by
  intro a
  induction a with
  | nil =>
      intro b c hab hbc
      cases c with
      | nil =>
          cases b with
          | nil => simpa [lexLt] using hab
          | cons y ys => simpa [lexLt] using hbc
      | cons z zs => rfl
  | cons x xs ih =>
      intro b c hab hbc
      cases b with
      | nil => simpa [lexLt] using hab
      | cons y ys =>
          cases c with
          | nil => simpa [lexLt] using hbc
          | cons z zs =>
              simp only [lexLt] at hab hbc ⊢
              by_cases h1 : x.toNat < y.toNat
              · by_cases h2 : y.toNat < z.toNat
                · rw [if_pos (by omega)]
                · rw [if_neg h2] at hbc
                  by_cases h3 : y.toNat = z.toNat
                  · rw [if_pos (by omega)]
                  · rw [if_neg h3] at hbc
                    exact absurd hbc (by simp)
              · rw [if_neg h1] at hab
                by_cases h4 : x.toNat = y.toNat
                · rw [if_pos h4] at hab
                  by_cases h2 : y.toNat < z.toNat
                  · rw [if_pos (by omega)]
                  · rw [if_neg h2] at hbc
                    by_cases h3 : y.toNat = z.toNat
                    · rw [if_pos h3] at hbc
                      rw [if_neg (by omega), if_pos (by omega)]
                      exact ih hab hbc
                    · rw [if_neg h3] at hbc
                      exact absurd hbc (by simp)
                · rw [if_neg h4] at hab
                  exact absurd hab (by simp)

theorem strLe_refl (a : String) : strLe a a = true := by
  simp [strLe, strLt, lexLt_irrefl]

theorem strLe_total : ∀ a b, strLe a b = false → strLe b a = true := by
  intro a b h
  simp only [strLe, strLt, Bool.not_eq_false'] at h
  simp only [strLe, strLt, Bool.not_eq_true']
  exact lexLt_asymm h

theorem strLe_trans : ∀ a b c,
    strLe a b = true → strLe b c = true → strLe a c = true := by
  intro a b c hab hbc
  simp only [strLe, strLt, Bool.not_eq_true'] at hab hbc ⊢
  cases hx : lexLt c.data a.data with
  | false => rfl
  | true =>
      exfalso
      cases hbc2 : lexLt b.data c.data with
      | true =>
          have := lexLt_trans hbc2 hx
          rw [this] at hab
          exact Bool.noConfusion hab
      | false =>
          have hbceq : b.data = c.data := lexLt_connex hbc2 hbc
          rw [← hbceq] at hx
          rw [hx] at hab
          exact Bool.noConfusion hab

theorem strLe_anti : ∀ a b,
    strLe a b = true → strLe b a = true → a = b := by
  intro a b hab hba
  simp only [strLe, strLt, Bool.not_eq_true'] at hab hba
  exact String.ext (lexLt_connex hba hab)

/-- The code-point comparison agrees with Lean's `String` strict order. -/
theorem lexLt_iff_list_lt : ∀ a b : List Char, lexLt a b = true ↔ List.lt a b := by
  intro a
  induction a with
  | nil =>
      intro b
      cases b with
      | nil =>
          simp only [lexLt]
          constructor
          · intro h
            exact Bool.noConfusion h
          · intro h
            cases h
      | cons y ys =>
          exact ⟨fun _ => List.lt.nil y ys, fun _ => rfl⟩
  | cons x xs ih =>
      intro b
      cases b with
      | nil =>
          simp only [lexLt]
          constructor
          · intro h
            exact Bool.noConfusion h
          · intro h
            cases h
      | cons y ys =>
          simp only [lexLt]
          constructor
          · intro h
            by_cases h1 : x.toNat < y.toNat
            · exact List.lt.head _ _ h1
            · rw [if_neg h1] at h
              by_cases h2 : x.toNat = y.toNat
              · rw [if_pos h2] at h
                have hxy : ¬ x < y := by
                  intro hh
                  have hh' : x.toNat < y.toNat := hh
                  omega
                have hyx : ¬ y < x := by
                  intro hh
                  have hh' : y.toNat < x.toNat := hh
                  omega
                exact List.lt.tail hxy hyx ((ih ys).mp h)
              · rw [if_neg h2] at h
                exact absurd h (by simp)
          · intro h
            cases h with
            | head _ _ hlt =>
                have hlt' : x.toNat < y.toNat := hlt
                rw [if_pos hlt']
            | tail hnlt hnlt' htail =>
                have h1 : ¬ x.toNat < y.toNat := fun hh => hnlt hh
                have h2 : ¬ y.toNat < x.toNat := fun hh => hnlt' hh
                rw [if_neg h1, if_pos (by omega)]
                exact (ih ys).mpr htail

/-- The embedded Python comparison is Lean's `≤` on `String`. -/
theorem strLe_iff (a b : String) : strLe a b = true ↔ a ≤ b := by
  have hlt : strLt b a = true ↔ b < a := by
    rw [strLt, lexLt_iff_list_lt, String.lt_iff_toList_lt, List.lt_iff_lex_lt]
    exact Iff.rfl
  rw [strLe, Bool.not_eq_true']
  constructor
  · intro h
    rw [← not_lt]
    intro hcon
    rw [← hlt] at hcon
    rw [hcon] at h
    exact Bool.noConfusion h
  · intro h
    cases hx : strLt b a with
    | false => rfl
    | true => exact absurd (hlt.mp hx) (not_lt.mpr h)

theorem keyDesc_total (dk : α → String) : ∀ a b,
    keyDesc dk a b = false → keyDesc dk b a = true := by
  intro a b h
  exact strLe_total _ _ h

theorem keyDesc_trans (dk : α → String) : ∀ a b c,
    keyDesc dk a b = true → keyDesc dk b c = true → keyDesc dk a c = true := by
  intro a b c h₁ h₂
  exact strLe_trans _ _ _ h₂ h₁

theorem strAsc_total : ∀ a b, strAsc a b = false → strAsc b a = true := by
  intro a b h
  exact strLe_total _ _ h

theorem strAsc_trans : ∀ a b c,
    strAsc a b = true → strAsc b c = true → strAsc a c = true := by
  intro a b c h₁ h₂
  exact strLe_trans _ _ _ h₁ h₂

/-! ## Lemmas: association lists -/

section AssocLemmas

variable {κ β : Type} [DecidableEq κ]

theorem lookupA_updateAssoc (k k' : κ) (d : β) (f : β → β) (l : List (κ × β)) :
    lookupA (updateAssoc k d f l) k' =
      if k' = k then some (f ((lookupA l k).getD d)) else lookupA l k' := by
  induction l with
  | nil =>
      simp only [updateAssoc, lookupA]
      by_cases h : k' = k
      · subst h; simp
      · rw [if_neg h, if_neg (fun hh => h hh.symm)]
  | cons hd tl ih =>
      obtain ⟨k₀, v⟩ := hd
      simp only [updateAssoc]
      by_cases h₀ : k₀ = k
      · subst h₀
        by_cases h' : k' = k₀
        · subst h'
          simp [lookupA]
        · have h'' : ¬ (k₀ = k') := fun hh => h' hh.symm
          simp [lookupA, h', h'']
      · rw [if_neg h₀]
        by_cases h' : k' = k₀
        · subst h'
          simp [lookupA, h₀]
        · have h'' : ¬ (k₀ = k') := fun hh => h' hh.symm
          simp [lookupA, h₀, h'', ih]

theorem keysOf_updateAssoc (k : κ) (d : β) (f : β → β) (l : List (κ × β)) :
    keysOf (updateAssoc k d f l) =
      if k ∈ keysOf l then keysOf l else keysOf l ++ [k] := by
  induction l with
  | nil => simp [updateAssoc, keysOf]
  | cons hd tl ih =>
      obtain ⟨k₀, v⟩ := hd
      simp only [updateAssoc]
      by_cases h₀ : k₀ = k
      · subst h₀
        simp [keysOf]
      · rw [if_neg h₀]
        have hkk₀ : ¬ k = k₀ := fun hh => h₀ hh.symm
        simp only [keysOf, List.map_cons] at ih ⊢
        rw [ih]
        by_cases hm : k ∈ List.map Prod.fst tl
        · rw [if_pos hm, if_pos (by simp [List.mem_cons, hm])]
        · rw [if_neg hm, if_neg (by simp [List.mem_cons, hkk₀, hm]),
            List.cons_append]

theorem nodup_keysOf_updateAssoc {k : κ} {d : β} {f : β → β} {l : List (κ × β)}
    (h : (keysOf l).Nodup) : (keysOf (updateAssoc k d f l)).Nodup := by
  rw [keysOf_updateAssoc]
  split
  · exact h
  · next hk =>
      rw [List.nodup_append]
      exact ⟨h, List.nodup_singleton k,
        fun a ha hb => by rw [List.mem_singleton] at hb; subst hb; exact hk ha⟩

theorem lookupA_eq_none {l : List (κ × β)} {k : κ} :
    lookupA l k = none ↔ k ∉ keysOf l := by
  induction l with
  | nil => simp [lookupA, keysOf]
  | cons hd tl ih =>
      obtain ⟨k₀, v⟩ := hd
      by_cases h : k₀ = k
      · subst h
        simp [lookupA, keysOf]
      · have h' : ¬ k = k₀ := fun hh => h hh.symm
        simp [lookupA, h, keysOf, ih, List.mem_cons, h']

theorem mem_of_lookupA {l : List (κ × β)} {k : κ} {v : β}
    (h : lookupA l k = some v) : (k, v) ∈ l := by
  induction l with
  | nil => simp [lookupA] at h
  | cons hd tl ih =>
      obtain ⟨k₀, v₀⟩ := hd
      by_cases h₀ : k₀ = k
      · subst h₀
        have h' : v₀ = v := by simpa [lookupA] using h
        subst h'
        exact List.mem_cons_self _ _
      · simp only [lookupA, if_neg h₀] at h
        exact List.mem_cons_of_mem _ (ih h)

theorem lookupA_of_mem_nodup {l : List (κ × β)} {k : κ} {v : β}
    (hnd : (keysOf l).Nodup) (h : (k, v) ∈ l) : lookupA l k = some v := by
  induction l with
  | nil => simp at h
  | cons hd tl ih =>
      obtain ⟨k₀, v₀⟩ := hd
      rcases List.mem_cons.mp h with heq | hmem
      · obtain ⟨rfl, rfl⟩ := Prod.mk.injEq .. ▸ heq
        simp [lookupA]
      · have hk : k₀ ≠ k := by
          rintro rfl
          have : k₀ ∈ keysOf tl := List.mem_map.mpr ⟨(k₀, v), hmem, rfl⟩
          exact (List.nodup_cons.mp hnd).1 this
        simp only [lookupA, if_neg hk]
        exact ih (List.nodup_cons.mp hnd).2 hmem

theorem reconstructA (d : β) {l : List (κ × β)} (hnd : (keysOf l).Nodup) :
    (keysOf l).map (fun k => (k, (lookupA l k).getD d)) = l := by
  induction l with
  | nil => simp [keysOf]
  | cons hd tl ih =>
      obtain ⟨k₀, v₀⟩ := hd
      simp only [keysOf, List.map_cons] at hnd ⊢
      rw [List.nodup_cons] at hnd
      have hhead : lookupA ((k₀, v₀) :: tl) k₀ = some v₀ := by simp [lookupA]
      rw [hhead]
      simp only [Option.getD_some]
      congr 1
      have : ∀ k ∈ List.map Prod.fst tl,
          (k, (lookupA ((k₀, v₀) :: tl) k).getD d) = (k, (lookupA tl k).getD d) := by
        intro k hk
        have : k₀ ≠ k := by rintro rfl; exact hnd.1 hk
        simp [lookupA, this]
      rw [List.map_congr_left this]
      exact ih hnd.2

theorem lookupA_mapKeyed (ks : List κ) (g : κ → β) (k : κ) :
    lookupA (ks.map (fun x => (x, g x))) k =
      if k ∈ ks then some (g k) else none := by
  induction ks with
  | nil => simp [lookupA]
  | cons a as ih =>
      by_cases h : a = k
      · subst h
        simp [lookupA]
      · have h' : ¬ k = a := fun hh => h hh.symm
        simp [lookupA, h, ih, List.mem_cons, h']

theorem groupFold_cons (key : σ → κ) (d : β) (upd : β → σ → β)
    (e : σ) (es : List σ) (m : List (κ × β)) :
    groupFold key d upd (e :: es) m =
      groupFold key d upd es (updateAssoc (key e) d (fun b => upd b e) m) := rfl

theorem lookupA_groupFold (key : σ → κ) (d : β) (upd : β → σ → β)
    (es : List σ) (m : List (κ × β)) (k : κ) :
    lookupA (groupFold key d upd es m) k =
      (match es.filter (fun e => decide (key e = k)) with
       | [] => lookupA m k
       | f :: fs => some ((f :: fs).foldl upd ((lookupA m k).getD d))) := by
  induction es generalizing m with
  | nil => simp [groupFold]
  | cons e es ih =>
      rw [groupFold_cons, ih]
      by_cases he : key e = k
      · rw [List.filter_cons_of_pos (by simp [he])]
        have hlk : lookupA (updateAssoc (key e) d (fun b => upd b e) m) k =
            some (upd ((lookupA m k).getD d) e) := by
          rw [lookupA_updateAssoc, if_pos he.symm, he]
        cases hrest : es.filter (fun e => decide (key e = k)) with
        | nil => simp [hlk]
        | cons f fs => simp [hlk, List.foldl_cons]
      · rw [List.filter_cons_of_neg (by simp [he])]
        have hlk : lookupA (updateAssoc (key e) d (fun b => upd b e) m) k =
            lookupA m k := by
          rw [lookupA_updateAssoc, if_neg (fun hh => he hh.symm)]
        rw [hlk]

theorem lookupA_groupFold_nil {key : σ → κ} {d : β} {upd : β → σ → β}
    {es : List σ} {m : List (κ × β)} {k : κ}
    (hf : es.filter (fun e => decide (key e = k)) = []) :
    lookupA (groupFold key d upd es m) k = lookupA m k := by
  rw [lookupA_groupFold, hf]

theorem lookupA_groupFold_ne {key : σ → κ} {d : β} {upd : β → σ → β}
    {es : List σ} {m : List (κ × β)} {k : κ} {f : σ} {fs : List σ}
    (hf : es.filter (fun e => decide (key e = k)) = f :: fs) :
    lookupA (groupFold key d upd es m) k =
      some ((f :: fs).foldl upd ((lookupA m k).getD d)) := by
  rw [lookupA_groupFold, hf]

theorem mem_keysOf_groupFold (key : σ → κ) (d : β) (upd : β → σ → β)
    (es : List σ) (m : List (κ × β)) (k : κ) :
    k ∈ keysOf (groupFold key d upd es m) ↔
      k ∈ keysOf m ∨ ∃ e ∈ es, key e = k := by
  have h1 : k ∈ keysOf (groupFold key d upd es m) ↔
      ¬ lookupA (groupFold key d upd es m) k = none := by
    rw [lookupA_eq_none]; tauto
  rw [h1, lookupA_groupFold]
  cases hf : es.filter (fun e => decide (key e = k)) with
  | nil =>
      rw [lookupA_eq_none]
      rw [List.filter_eq_nil_iff] at hf
      simp only [decide_eq_true_eq] at hf
      constructor
      · intro h; left; tauto
      · rintro (h | ⟨e, he, hk⟩)
        · tauto
        · exact absurd hk (hf e he)
  | cons f fs =>
      simp only [reduceCtorEq, not_false_iff, true_iff]
      right
      have hmem : f ∈ es.filter (fun e => decide (key e = k)) := by
        rw [hf]; exact List.mem_cons_self _ _
      rw [List.mem_filter] at hmem
      exact ⟨f, hmem.1, of_decide_eq_true hmem.2⟩

theorem nodup_keysOf_groupFold (key : σ → κ) (d : β) (upd : β → σ → β)
    (es : List σ) {m : List (κ × β)} (h : (keysOf m).Nodup) :
    (keysOf (groupFold key d upd es m)).Nodup := by
  induction es generalizing m with
  | nil => exact h
  | cons e es ih => exact ih (nodup_keysOf_updateAssoc h)

end AssocLemmas

/-- Folding list-append over elements appends their images. -/
theorem foldl_append_map (g : σ → α) (es : List σ) (b : List α) :
    es.foldl (fun l e => l ++ [g e]) b = b ++ es.map g := by
  induction es generalizing b with
  | nil => simp
  | cons e es ih => simp [List.foldl_cons, ih]

/-! ## Lemmas: the bucketer -/

/-- A successful run of the `_time_hierarchy` loop computes `pureBuild` of
the parsed entries. -/
theorem buildLoop_eq {dk : α → String} {items : List α} {t₀ t : Tree α}
    (h : buildLoop dk t₀ items = some t) :
    t = pureBuild t₀ (validOf dk items) := by
  induction items generalizing t₀ with
  | nil =>
      simp only [buildLoop, List.foldlM_nil] at h
      cases h
      simp [validOf, pureBuild]
  | cons it rest ih =>
      rw [buildLoop, List.foldlM_cons] at h
      cases hs : buildStep dk t₀ it with
      | none =>
          rw [hs] at h
          exact Option.noConfusion h
      | some t₁ =>
          rw [hs] at h
          have hrec := ih h
          unfold buildStep at hs
          by_cases hskip : skipDate (dk it) = true
          · rw [if_pos hskip] at hs
            have ht₁ : t₁ = t₀ := by
              have := Option.some.inj hs
              exact this.symm
            have hdp : dateParsed (dk it) = none := by
              simp [dateParsed, hskip]
            rw [hrec, ht₁]
            simp [validOf, List.filterMap_cons, hdp]
          · rw [if_neg hskip] at hs
            cases hp : parseYM (dk it) with
            | none =>
                rw [hp] at hs
                exact Option.noConfusion hs
            | some ym =>
                rw [hp] at hs
                simp only [Option.map_some'] at hs
                have ht₁ : t₁ = insert_c t₀ (ym, it) := (Option.some.inj hs).symm
                have hdp : dateParsed (dk it) = some ym := by
                  simp [dateParsed, hskip, hp]
                rw [hrec, ht₁]
                simp [validOf, List.filterMap_cons, hdp, pureBuild, List.foldl_cons]

/-- The four nested `setdefault` levels are keyed grouping passes. -/
theorem pureBuild_eq_groupFold (t : Tree α) (v : List ((Int × Int) × α)) :
    pureBuild t v =
      groupFold (fun e => centuryOf e.1.1) [] (fun sl e => insert_sh sl e) v t := rfl

theorem buildSh_eq (v : List ((Int × Int) × α)) :
    buildSh v =
      groupFold (fun e => shikinen_range e.1.1) [] (fun yl e => insert_y yl e) v [] := rfl

theorem buildY_eq (v : List ((Int × Int) × α)) :
    buildY v = groupFold (fun e => e.1.1) [] (fun ml e => insert_m ml e) v [] := rfl

theorem buildM_eq (v : List ((Int × Int) × α)) :
    buildM v = groupFold (fun e => e.1.2) [] (fun l e => l ++ [e.2]) v [] := rfl

theorem lookupA_pureBuild (v : List ((Int × Int) × α)) (c : Int) :
    lookupA (pureBuild [] v) c =
      (match v.filter (fun e => decide (centuryOf e.1.1 = c)) with
       | [] => none
       | f :: fs => some (buildSh (f :: fs))) := by
  rw [pureBuild_eq_groupFold, lookupA_groupFold]
  cases hf : v.filter (fun e => decide (centuryOf e.1.1 = c)) with
  | nil => rfl
  | cons f fs => rfl

theorem lookupA_buildSh (v : List ((Int × Int) × α)) (sh : Int × Int) :
    lookupA (buildSh v) sh =
      (match v.filter (fun e => decide (shikinen_range e.1.1 = sh)) with
       | [] => none
       | f :: fs => some (buildY (f :: fs))) := by
  rw [buildSh_eq, lookupA_groupFold]
  cases hf : v.filter (fun e => decide (shikinen_range e.1.1 = sh)) with
  | nil => rfl
  | cons f fs => rfl

theorem lookupA_buildY (v : List ((Int × Int) × α)) (y : Int) :
    lookupA (buildY v) y =
      (match v.filter (fun e => decide (e.1.1 = y)) with
       | [] => none
       | f :: fs => some (buildM (f :: fs))) := by
  rw [buildY_eq, lookupA_groupFold]
  cases hf : v.filter (fun e => decide (e.1.1 = y)) with
  | nil => rfl
  | cons f fs => rfl

theorem lookupA_buildM (v : List ((Int × Int) × α)) (m : Int) :
    lookupA (buildM v) m =
      (match v.filter (fun e => decide (e.1.2 = m)) with
       | [] => none
       | f :: fs => some ((f :: fs).map (fun e => e.2))) := by
  rw [buildM_eq, lookupA_groupFold]
  cases hf : v.filter (fun e => decide (e.1.2 = m)) with
  | nil => rfl
  | cons f fs =>
      have := foldl_append_map (fun e : (Int × Int) × α => e.2) (f :: fs) []
      simp only [lookupA, Option.getD_none]
      rw [this]
      simp

theorem mem_keysOf_pureBuild (v : List ((Int × Int) × α)) (c : Int) :
    c ∈ keysOf (pureBuild [] v) ↔ ∃ e ∈ v, centuryOf e.1.1 = c := by
  rw [pureBuild_eq_groupFold, mem_keysOf_groupFold]
  simp [keysOf]

theorem mem_keysOf_buildSh (v : List ((Int × Int) × α)) (sh : Int × Int) :
    sh ∈ keysOf (buildSh v) ↔ ∃ e ∈ v, shikinen_range e.1.1 = sh := by
  rw [buildSh_eq, mem_keysOf_groupFold]
  simp [keysOf]

theorem mem_keysOf_buildY (v : List ((Int × Int) × α)) (y : Int) :
    y ∈ keysOf (buildY v) ↔ ∃ e ∈ v, e.1.1 = y := by
  rw [buildY_eq, mem_keysOf_groupFold]
  simp [keysOf]

theorem mem_keysOf_buildM (v : List ((Int × Int) × α)) (m : Int) :
    m ∈ keysOf (buildM v) ↔ ∃ e ∈ v, e.1.2 = m := by
  rw [buildM_eq, mem_keysOf_groupFold]
  simp [keysOf]

theorem nodup_keysOf_pureBuild (v : List ((Int × Int) × α)) :
    (keysOf (pureBuild [] v)).Nodup := by
  rw [pureBuild_eq_groupFold]
  exact nodup_keysOf_groupFold _ _ _ _ (by simp [keysOf])

theorem nodup_keysOf_buildSh (v : List ((Int × Int) × α)) :
    (keysOf (buildSh v)).Nodup := by
  rw [buildSh_eq]
  exact nodup_keysOf_groupFold _ _ _ _ (by simp [keysOf])

theorem nodup_keysOf_buildY (v : List ((Int × Int) × α)) :
    (keysOf (buildY v)).Nodup := by
  rw [buildY_eq]
  exact nodup_keysOf_groupFold _ _ _ _ (by simp [keysOf])

theorem nodup_keysOf_buildM (v : List ((Int × Int) × α)) :
    (keysOf (buildM v)).Nodup := by
  rw [buildM_eq]
  exact nodup_keysOf_groupFold _ _ _ _ (by simp [keysOf])

/-- Every century value in the built tree is a shikinen subtree builder's
output on a non-empty entry list. -/
theorem val_of_pureBuild {v : List ((Int × Int) × α)} {c : Int} {sl : ShMap α}
    (h : (c, sl) ∈ pureBuild [] v) : ∃ f fs, sl = buildSh (f :: fs) := by
  have hl := lookupA_of_mem_nodup (nodup_keysOf_pureBuild v) h
  rw [lookupA_pureBuild] at hl
  cases hf : v.filter (fun e => decide (centuryOf e.1.1 = c)) with
  | nil => rw [hf] at hl; exact Option.noConfusion hl
  | cons f fs =>
      rw [hf] at hl
      exact ⟨f, fs, (Option.some.inj hl).symm⟩

theorem val_of_buildSh {v : List ((Int × Int) × α)} {sh : Int × Int}
    {yl : YearMap α} (h : (sh, yl) ∈ buildSh v) :
    ∃ f fs, yl = buildY (f :: fs) := by
  have hl := lookupA_of_mem_nodup (nodup_keysOf_buildSh v) h
  rw [lookupA_buildSh] at hl
  cases hf : v.filter (fun e => decide (shikinen_range e.1.1 = sh)) with
  | nil => rw [hf] at hl; exact Option.noConfusion hl
  | cons f fs =>
      rw [hf] at hl
      exact ⟨f, fs, (Option.some.inj hl).symm⟩

theorem val_of_buildY {v : List ((Int × Int) × α)} {y : Int}
    {ml : MonthMap α} (h : (y, ml) ∈ buildY v) :
    ∃ f fs, ml = buildM (f :: fs) := by
  have hl := lookupA_of_mem_nodup (nodup_keysOf_buildY v) h
  rw [lookupA_buildY] at hl
  cases hf : v.filter (fun e => decide (e.1.1 = y)) with
  | nil => rw [hf] at hl; exact Option.noConfusion hl
  | cons f fs =>
      rw [hf] at hl
      exact ⟨f, fs, (Option.some.inj hl).symm⟩

/-- The built tree has duplicate-free keys at every level. -/
theorem nodupT_pureBuild (v : List ((Int × Int) × α)) :
    nodupT (pureBuild [] v) := by
  refine ⟨nodup_keysOf_pureBuild v, ?_⟩
  rintro ⟨c, sl⟩ hp
  obtain ⟨f, fs, rfl⟩ := val_of_pureBuild hp
  refine ⟨nodup_keysOf_buildSh _, ?_⟩
  rintro ⟨sh, yl⟩ hq
  obtain ⟨f', fs', rfl⟩ := val_of_buildSh hq
  refine ⟨nodup_keysOf_buildY _, ?_⟩
  rintro ⟨y, ml⟩ hr
  obtain ⟨f'', fs'', rfl⟩ := val_of_buildY hr
  exact nodup_keysOf_buildM _

/-! ## Lemmas: item counts -/

theorem sumVals_updateAssoc {κ β : Type} [DecidableEq κ] (g : β → Nat)
    (f : β → β) (d : β) (hf : ∀ b, g (f b) = g b + 1) (hd : g d = 0)
    (k : κ) (l : List (κ × β)) :
    sumVals g (updateAssoc k d f l) = sumVals g l + 1 := by
  induction l with
  | nil => simp [updateAssoc, sumVals, hf, hd]
  | cons hd' tl ih =>
      obtain ⟨k₀, v⟩ := hd'
      simp only [updateAssoc]
      by_cases h : k₀ = k
      · rw [if_pos h]
        simp only [sumVals, List.map_cons, List.sum_cons] at *
        rw [hf]
        omega
      · rw [if_neg h]
        simp only [sumVals, List.map_cons, List.sum_cons] at *
        rw [ih]
        omega

theorem count_items_m_insert (ml : MonthMap α) (e : (Int × Int) × α) :
    count_items_m (insert_m ml e) = count_items_m ml + 1 := by
  have h : (@count_items_m α) = sumVals List.length := rfl
  rw [h, insert_m]
  exact sumVals_updateAssoc List.length (fun l => l ++ [e.2]) [] (fun b => by simp) rfl _ _

theorem count_items_y_insert (yl : YearMap α) (e : (Int × Int) × α) :
    count_items_y (insert_y yl e) = count_items_y yl + 1 := by
  have h : (@count_items_y α) = sumVals count_items_m := rfl
  rw [h, insert_y]
  exact sumVals_updateAssoc count_items_m (fun ml => insert_m ml e) []
    (fun b => count_items_m_insert b e) rfl _ _

theorem count_items_sh_insert (sl : ShMap α) (e : (Int × Int) × α) :
    count_items_sh (insert_sh sl e) = count_items_sh sl + 1 := by
  have h : (@count_items_sh α) = sumVals count_items_y := rfl
  rw [h, insert_sh]
  exact sumVals_updateAssoc count_items_y (fun yl => insert_y yl e) []
    (fun b => count_items_y_insert b e) rfl _ _

theorem count_items_tree_insert (t : Tree α) (e : (Int × Int) × α) :
    count_items_tree (insert_c t e) = count_items_tree t + 1 := by
  have h : (@count_items_tree α) = sumVals count_items_sh := rfl
  rw [h, insert_c]
  exact sumVals_updateAssoc count_items_sh (fun sl => insert_sh sl e) []
    (fun b => count_items_sh_insert b e) rfl _ _

theorem count_items_tree_pureBuild (t : Tree α) (v : List ((Int × Int) × α)) :
    count_items_tree (pureBuild t v) = count_items_tree t + v.length := by
  induction v generalizing t with
  | nil => simp [pureBuild]
  | cons e es ih =>
      have hstep : pureBuild t (e :: es) = pureBuild (insert_c t e) es := rfl
      rw [hstep, ih, count_items_tree_insert]
      simp
      omega

theorem validOf_length (dk : α → String) (items : List α) :
    (validOf dk items).length =
      items.countP (fun it => (dateParsed (dk it)).isSome) := by
  induction items with
  | nil => simp [validOf]
  | cons it rest ih =>
      simp only [validOf] at ih ⊢
      rw [List.filterMap_cons]
      cases h : dateParsed (dk it) with
      | none => simp [h, List.countP_cons, ih]
      | some ym => simp [h, List.countP_cons, ih]

theorem validOf_filter_map (dk : α → String) (items : List α) (y m : Int) :
    ((validOf dk items).filter (fun e => decide (e.1 = (y, m)))).map
        (fun e => e.2) = itemsAt dk items y m := by
  induction items with
  | nil => simp [validOf, itemsAt]
  | cons it rest ih =>
      simp only [validOf, List.filterMap_cons, itemsAt, List.filter_cons] at *
      cases h : dateParsed (dk it) with
      | none => simp [h, ih]
      | some ym =>
          by_cases hym : ym = (y, m)
          · subst hym
            simp [h, List.filter_cons, ih]
          · simp [h, List.filter_cons, hym, ih]

/-- Collapsing the four nested per-level filters: non-canonical century or
cycle components select nothing; the canonical path selects exactly the
entries of that (year, month). -/
theorem filter_chain (v : List ((Int × Int) × α)) (c : Int) (sh : Int × Int)
    (y m : Int) :
    (((v.filter (fun e => decide (centuryOf e.1.1 = c))).filter
        (fun e => decide (shikinen_range e.1.1 = sh))).filter
        (fun e => decide (e.1.1 = y))).filter (fun e => decide (e.1.2 = m)) =
      if c = centuryOf y ∧ sh = shikinen_range y then
        v.filter (fun e => decide (e.1 = (y, m)))
      else [] := by
  rw [List.filter_filter, List.filter_filter, List.filter_filter]
  by_cases hc : c = centuryOf y ∧ sh = shikinen_range y
  · rw [if_pos hc]
    apply List.filter_congr
    intro e he
    obtain ⟨hc1, hc2⟩ := hc
    cases hy : decide (e.1.1 = y) with
    | false =>
        have hyn : ¬ (e.1.1 = y) := of_decide_eq_false hy
        have h1 : decide (e.1 = (y, m)) = false := by
          apply decide_eq_false
          intro hh
          exact hyn (congrArg Prod.fst hh)
        simp [hy, h1]
    | true =>
        have hyy : e.1.1 = y := of_decide_eq_true hy
        have h2 : decide (centuryOf e.1.1 = c) = true := by
          rw [hyy, ← hc1]; exact decide_eq_true rfl
        have h3 : decide (shikinen_range e.1.1 = sh) = true := by
          rw [hyy, ← hc2]; exact decide_eq_true rfl
        rw [h2, h3]
        simp only [Bool.and_true, Bool.true_and]
        rw [decide_eq_decide]
        constructor
        · intro hm2
          exact Prod.ext hyy hm2
        · intro hh
          exact congrArg Prod.snd hh
  · rw [if_neg hc, List.filter_eq_nil_iff]
    intro e he hcond
    simp only [Bool.and_eq_true, decide_eq_true_eq] at hcond
    obtain ⟨⟨⟨hm2, hy⟩, hsh⟩, hcc⟩ := hcond
    exact hc ⟨by rw [← hcc, hy], by rw [← hsh, hy]⟩

/-- Leaf lookup in the unsorted built tree. -/
theorem lookupLeaf_pureBuild (v : List ((Int × Int) × α)) (c : Int)
    (sh : Int × Int) (y m : Int) :
    lookupLeaf (pureBuild [] v) c sh y m =
      (match (((v.filter (fun e => decide (centuryOf e.1.1 = c))).filter
          (fun e => decide (shikinen_range e.1.1 = sh))).filter
          (fun e => decide (e.1.1 = y))).filter (fun e => decide (e.1.2 = m)) with
       | [] => none
       | f :: fs => some ((f :: fs).map (fun e => e.2))) := by
  unfold lookupLeaf
  rw [lookupA_pureBuild]
  cases h1 : v.filter (fun e => decide (centuryOf e.1.1 = c)) with
  | nil => simp
  | cons f1 fs1 =>
      simp only [Option.some_bind]
      rw [lookupA_buildSh]
      cases h2 : (f1 :: fs1).filter (fun e => decide (shikinen_range e.1.1 = sh)) with
      | nil => simp
      | cons f2 fs2 =>
          simp only [Option.some_bind]
          rw [lookupA_buildY]
          cases h3 : (f2 :: fs2).filter (fun e => decide (e.1.1 = y)) with
          | nil => simp
          | cons f3 fs3 =>
              simp only [Option.some_bind]
              rw [lookupA_buildM]

/-! ## Lemmas: the sorting pass -/

theorem keysOf_mapKeyed {κ β : Type} (ks : List κ) (g : κ → β) :
    keysOf (ks.map (fun k => (k, g k))) = ks := by
  simp [keysOf, List.map_map, Function.comp_def]

theorem keysOf_sort_months (ml : MonthMap α) :
    keysOf (sort_months ml) = sSortBy intDesc (keysOf ml) := by
  rw [sort_months, keysOf_mapKeyed]

theorem keysOf_sort_years (yl : YearMap α) :
    keysOf (sort_years yl) = sSortBy intDesc (keysOf yl) := by
  rw [sort_years, keysOf_mapKeyed]

theorem keysOf_sort_sh (sl : ShMap α) :
    keysOf (sort_sh sl) = sSortBy pairDesc (keysOf sl) := by
  rw [sort_sh, keysOf_mapKeyed]

theorem keysOf_sort_tree (t : Tree α) :
    keysOf (sort_tree t) = sSortBy intDesc (keysOf t) := by
  rw [sort_tree, keysOf_mapKeyed]

theorem lookupA_sort_months {ml : MonthMap α} (hnd : (keysOf ml).Nodup)
    (k : Int) : lookupA (sort_months ml) k = lookupA ml k := by
  rw [sort_months, lookupA_mapKeyed]
  by_cases hm : k ∈ sSortBy intDesc (keysOf ml)
  · rw [if_pos hm]
    have hk : k ∈ keysOf ml := (sSortBy_perm intDesc (keysOf ml)).mem_iff.mp hm
    cases hl : lookupA ml k with
    | none => exact absurd hk (lookupA_eq_none.mp hl)
    | some v => simp
  · rw [if_neg hm]
    have hk : k ∉ keysOf ml :=
      fun h => hm ((sSortBy_perm intDesc (keysOf ml)).mem_iff.mpr h)
    exact (lookupA_eq_none.mpr hk).symm

theorem lookupA_sort_years {yl : YearMap α} (hnd : (keysOf yl).Nodup)
    (k : Int) :
    lookupA (sort_years yl) k = (lookupA yl k).map sort_months := by
  rw [sort_years, lookupA_mapKeyed]
  by_cases hm : k ∈ sSortBy intDesc (keysOf yl)
  · rw [if_pos hm]
    have hk : k ∈ keysOf yl := (sSortBy_perm intDesc (keysOf yl)).mem_iff.mp hm
    cases hl : lookupA yl k with
    | none => exact absurd hk (lookupA_eq_none.mp hl)
    | some v => simp
  · rw [if_neg hm]
    have hk : k ∉ keysOf yl :=
      fun h => hm ((sSortBy_perm intDesc (keysOf yl)).mem_iff.mpr h)
    rw [lookupA_eq_none.mpr hk]
    simp

theorem lookupA_sort_sh {sl : ShMap α} (hnd : (keysOf sl).Nodup)
    (k : Int × Int) :
    lookupA (sort_sh sl) k = (lookupA sl k).map sort_years := by
  rw [sort_sh, lookupA_mapKeyed]
  by_cases hm : k ∈ sSortBy pairDesc (keysOf sl)
  · rw [if_pos hm]
    have hk : k ∈ keysOf sl := (sSortBy_perm pairDesc (keysOf sl)).mem_iff.mp hm
    cases hl : lookupA sl k with
    | none => exact absurd hk (lookupA_eq_none.mp hl)
    | some v => simp
  · rw [if_neg hm]
    have hk : k ∉ keysOf sl :=
      fun h => hm ((sSortBy_perm pairDesc (keysOf sl)).mem_iff.mpr h)
    rw [lookupA_eq_none.mpr hk]
    simp

theorem lookupA_sort_tree {t : Tree α} (hnd : (keysOf t).Nodup) (k : Int) :
    lookupA (sort_tree t) k = (lookupA t k).map sort_sh := by
  rw [sort_tree, lookupA_mapKeyed]
  by_cases hm : k ∈ sSortBy intDesc (keysOf t)
  · rw [if_pos hm]
    have hk : k ∈ keysOf t := (sSortBy_perm intDesc (keysOf t)).mem_iff.mp hm
    cases hl : lookupA t k with
    | none => exact absurd hk (lookupA_eq_none.mp hl)
    | some v => simp
  · rw [if_neg hm]
    have hk : k ∉ keysOf t :=
      fun h => hm ((sSortBy_perm intDesc (keysOf t)).mem_iff.mpr h)
    rw [lookupA_eq_none.mpr hk]
    simp

theorem lookupLeaf_sort_tree {t : Tree α} (h : nodupT t) (c : Int)
    (sh : Int × Int) (y m : Int) :
    lookupLeaf (sort_tree t) c sh y m = lookupLeaf t c sh y m := by
  unfold lookupLeaf
  rw [lookupA_sort_tree h.1]
  cases hc : lookupA t c with
  | none => simp
  | some sl =>
      have hsl := h.2 (c, sl) (mem_of_lookupA hc)
      simp only [Option.map_some', Option.some_bind]
      rw [lookupA_sort_sh hsl.1]
      cases hsh : lookupA sl sh with
      | none => simp
      | some yl =>
          have hyl := hsl.2 (sh, yl) (mem_of_lookupA hsh)
          simp only [Option.map_some', Option.some_bind]
          rw [lookupA_sort_years hyl.1]
          cases hy : lookupA yl y with
          | none => simp
          | some ml =>
              have hml := hyl.2 (y, ml) (mem_of_lookupA hy)
              simp only [Option.map_some', Option.some_bind]
              rw [lookupA_sort_months hml]

theorem count_items_m_sort {ml : MonthMap α} (hnd : (keysOf ml).Nodup) :
    count_items_m (sort_months ml) = count_items_m ml := by
  have hperm : (sort_months ml).Perm ml := by
    rw [sort_months]
    have h1 := (sSortBy_perm intDesc (keysOf ml)).map
      (fun k => (k, (lookupA ml k).getD []))
    rw [reconstructA [] hnd] at h1
    exact h1
  exact (hperm.map (fun p => p.2.length)).sum_eq

theorem count_items_y_sort {yl : YearMap α} (hnd : (keysOf yl).Nodup)
    (hv : ∀ q ∈ yl, (keysOf q.2).Nodup) :
    count_items_y (sort_years yl) = count_items_y yl := by
  have h1 : count_items_y (sort_years yl) =
      ((sSortBy intDesc (keysOf yl)).map
        (fun k => count_items_m (sort_months ((lookupA yl k).getD [])))).sum := by
    rw [sort_years]
    simp [count_items_y, List.map_map, Function.comp_def]
  rw [h1]
  have h2 : ∀ k ∈ sSortBy intDesc (keysOf yl),
      count_items_m (sort_months ((lookupA yl k).getD [])) =
        count_items_m ((lookupA yl k).getD []) := by
    intro k hk
    have hkk : k ∈ keysOf yl := (sSortBy_perm _ _).mem_iff.mp hk
    cases hl : lookupA yl k with
    | none => exact absurd hkk (lookupA_eq_none.mp hl)
    | some v =>
        simp only [Option.getD_some]
        exact count_items_m_sort (hv (k, v) (mem_of_lookupA hl))
  rw [List.map_congr_left h2]
  have h3 : ((sSortBy intDesc (keysOf yl)).map
        (fun k => count_items_m ((lookupA yl k).getD []))).sum =
      ((keysOf yl).map (fun k => count_items_m ((lookupA yl k).getD []))).sum :=
    ((sSortBy_perm _ _).map _).sum_eq
  rw [h3]
  conv_rhs => rw [← reconstructA ([] : MonthMap α) hnd]
  simp [count_items_y, List.map_map, Function.comp_def]

theorem count_items_sh_sort {sl : ShMap α} (hnd : (keysOf sl).Nodup)
    (hv : ∀ q ∈ sl, (keysOf q.2).Nodup ∧ ∀ r ∈ q.2, (keysOf r.2).Nodup) :
    count_items_sh (sort_sh sl) = count_items_sh sl := by
  have h1 : count_items_sh (sort_sh sl) =
      ((sSortBy pairDesc (keysOf sl)).map
        (fun k => count_items_y (sort_years ((lookupA sl k).getD [])))).sum := by
    rw [sort_sh]
    simp [count_items_sh, List.map_map, Function.comp_def]
  rw [h1]
  have h2 : ∀ k ∈ sSortBy pairDesc (keysOf sl),
      count_items_y (sort_years ((lookupA sl k).getD [])) =
        count_items_y ((lookupA sl k).getD []) := by
    intro k hk
    have hkk : k ∈ keysOf sl := (sSortBy_perm _ _).mem_iff.mp hk
    cases hl : lookupA sl k with
    | none => exact absurd hkk (lookupA_eq_none.mp hl)
    | some v =>
        simp only [Option.getD_some]
        have hq := hv (k, v) (mem_of_lookupA hl)
        exact count_items_y_sort hq.1 hq.2
  rw [List.map_congr_left h2]
  have h3 : ((sSortBy pairDesc (keysOf sl)).map
        (fun k => count_items_y ((lookupA sl k).getD []))).sum =
      ((keysOf sl).map (fun k => count_items_y ((lookupA sl k).getD []))).sum :=
    ((sSortBy_perm _ _).map _).sum_eq
  rw [h3]
  conv_rhs => rw [← reconstructA ([] : YearMap α) hnd]
  simp [count_items_sh, List.map_map, Function.comp_def]

theorem count_items_tree_sort {t : Tree α} (h : nodupT t) :
    count_items_tree (sort_tree t) = count_items_tree t := by
  have h1 : count_items_tree (sort_tree t) =
      ((sSortBy intDesc (keysOf t)).map
        (fun k => count_items_sh (sort_sh ((lookupA t k).getD [])))).sum := by
    rw [sort_tree]
    simp [count_items_tree, List.map_map, Function.comp_def]
  rw [h1]
  have h2 : ∀ k ∈ sSortBy intDesc (keysOf t),
      count_items_sh (sort_sh ((lookupA t k).getD [])) =
        count_items_sh ((lookupA t k).getD []) := by
    intro k hk
    have hkk : k ∈ keysOf t := (sSortBy_perm _ _).mem_iff.mp hk
    cases hl : lookupA t k with
    | none => exact absurd hkk (lookupA_eq_none.mp hl)
    | some v =>
        simp only [Option.getD_some]
        have hq := h.2 (k, v) (mem_of_lookupA hl)
        exact count_items_sh_sort hq.1 hq.2
  rw [List.map_congr_left h2]
  have h3 : ((sSortBy intDesc (keysOf t)).map
        (fun k => count_items_sh ((lookupA t k).getD []))).sum =
      ((keysOf t).map (fun k => count_items_sh ((lookupA t k).getD []))).sum :=
    ((sSortBy_perm _ _).map _).sum_eq
  rw [h3]
  conv_rhs => rw [← reconstructA ([] : ShMap α) h.1]
  simp [count_items_tree, List.map_map, Function.comp_def]

theorem nodupT_sort_tree {t : Tree α} (h : nodupT t) : nodupT (sort_tree t) := by
  constructor
  · rw [keysOf_sort_tree]
    exact ((sSortBy_perm _ _).nodup_iff).mpr h.1
  · intro p hp
    rw [sort_tree] at hp
    obtain ⟨k, hk, rfl⟩ := List.mem_map.mp hp
    have hk' : k ∈ keysOf t := (sSortBy_perm _ _).mem_iff.mp hk
    cases hl : lookupA t k with
    | none => exact absurd hk' (lookupA_eq_none.mp hl)
    | some sl =>
        have hsl := h.2 (k, sl) (mem_of_lookupA hl)
        simp only [Option.getD_some]
        constructor
        · rw [keysOf_sort_sh]
          exact ((sSortBy_perm _ _).nodup_iff).mpr hsl.1
        · intro q hq
          rw [sort_sh] at hq
          obtain ⟨k2, hk2, rfl⟩ := List.mem_map.mp hq
          have hk2' : k2 ∈ keysOf sl := (sSortBy_perm _ _).mem_iff.mp hk2
          cases hl2 : lookupA sl k2 with
          | none => exact absurd hk2' (lookupA_eq_none.mp hl2)
          | some yl =>
              have hyl := hsl.2 (k2, yl) (mem_of_lookupA hl2)
              simp only [Option.getD_some]
              constructor
              · rw [keysOf_sort_years]
                exact ((sSortBy_perm _ _).nodup_iff).mpr hyl.1
              · intro r hr
                rw [sort_years] at hr
                obtain ⟨k3, hk3, rfl⟩ := List.mem_map.mp hr
                have hk3' : k3 ∈ keysOf yl := (sSortBy_perm _ _).mem_iff.mp hk3
                cases hl3 : lookupA yl k3 with
                | none => exact absurd hk3' (lookupA_eq_none.mp hl3)
                | some ml =>
                    have hml := hyl.2 (k3, ml) (mem_of_lookupA hl3)
                    simp only [Option.getD_some]
                    rw [keysOf_sort_months]
                    exact ((sSortBy_perm _ _).nodup_iff).mpr hml

/-! ## The master characterization of `_time_hierarchy` -/

theorem time_hierarchy_eq {dk : α → String} {items : List α} {t : Tree α}
    (h : time_hierarchy dk items = some t) :
    t = sort_tree (pureBuild [] (validOf dk items)) := by
  unfold time_hierarchy at h
  cases hb : buildLoop dk [] items with
  | none => rw [hb] at h; exact Option.noConfusion h
  | some u =>
      rw [hb] at h
      simp only [Option.map_some'] at h
      rw [← Option.some.inj h, buildLoop_eq hb]

/-- A leaf is reachable exactly along the canonical path of its year and
month, and holds exactly the items parsing to that (year, month), in input
order. -/
theorem lookupLeaf_time_hierarchy {dk : α → String} {items : List α}
    {t : Tree α} (h : time_hierarchy dk items = some t) (c : Int)
    (sh : Int × Int) (y m : Int) :
    lookupLeaf t c sh y m =
      if c = centuryOf y ∧ sh = shikinen_range y ∧
          (itemsAt dk items y m).isEmpty = false then
        some (itemsAt dk items y m)
      else none := by
  rw [time_hierarchy_eq h,
    lookupLeaf_sort_tree (nodupT_pureBuild (validOf dk items)),
    lookupLeaf_pureBuild, filter_chain]
  by_cases hc : c = centuryOf y ∧ sh = shikinen_range y
  · rw [if_pos hc]
    cases hf : (validOf dk items).filter (fun e => decide (e.1 = (y, m))) with
    | nil =>
        have hempty : itemsAt dk items y m = [] := by
          rw [← validOf_filter_map, hf]
          rfl
        rw [if_neg (by simp [hempty])]
    | cons f fs =>
        have hitems : itemsAt dk items y m = (f :: fs).map (fun e => e.2) := by
          rw [← validOf_filter_map, hf]
        have hne : (itemsAt dk items y m).isEmpty = false := by
          rw [hitems]
          rfl
        rw [if_pos ⟨hc.1, hc.2, hne⟩, hitems]
  · rw [if_neg hc, if_neg (fun hh => hc ⟨hh.1, hh.2.1⟩)]

/-! ## Lemmas: string order facts and sorted-output shape -/

/-- The empty string is the least string. -/
theorem empty_string_le (s : String) : "" ≤ s := by
  rcases eq_or_ne s "" with rfl | h
  · exact le_refl _
  · apply le_of_lt
    rw [String.lt_iff_toList_lt]
    cases hs : s.toList with
    | nil =>
        exfalso
        apply h
        apply String.ext
        simpa [String.toList] using hs
    | cons c cs => exact List.nil_lt_cons c cs

theorem le_empty_string {s : String} (h : s ≤ "") : s = "" :=
  le_antisymm h (empty_string_le s)

/-- In a list sorted descending by key, the empty-key elements form the
final segment: the list is its non-empty-keyed part followed by its
empty-keyed part. -/
theorem sorted_desc_empty_last (dk : α → String) (l : List α)
    (hs : l.Pairwise (fun a b => keyDesc dk a b = true)) :
    l = l.filter (fun x => decide (dk x ≠ "")) ++
        l.filter (fun x => decide (dk x = "")) := by
  induction l with
  | nil => rfl
  | cons x xs ih =>
      rw [List.pairwise_cons] at hs
      by_cases hd : dk x = ""
      · have hall : ∀ y ∈ xs, dk y = "" := by
          intro y hy
          have hle : dk y ≤ dk x := (strLe_iff _ _).mp (hs.1 y hy)
          rw [hd] at hle
          exact le_empty_string hle
        have h1 : (x :: xs).filter (fun x => decide (dk x ≠ "")) = [] := by
          rw [List.filter_eq_nil_iff]
          intro a ha
          rcases List.mem_cons.mp ha with rfl | ha'
          · simp [hd]
          · simp [hall a ha']
        have h2 : (x :: xs).filter (fun x => decide (dk x = "")) = x :: xs := by
          rw [List.filter_eq_self]
          intro a ha
          rcases List.mem_cons.mp ha with rfl | ha'
          · simp [hd]
          · simp [hall a ha']
        rw [h1, h2]
        rfl
      · rw [List.filter_cons_of_pos (by simp [hd]),
          List.filter_cons_of_neg (by simp [hd]), List.cons_append]
        congr 1
        exact ih hs.2

/-- Filtering a prefix yields a prefix of the filtered list. -/
theorem filter_take (p : α → Bool) (l : List α) (n : Nat) :
    ∃ k, (l.take n).filter p = (l.filter p).take k := by
  induction l generalizing n with
  | nil => exact ⟨0, by simp⟩
  | cons x xs ih =>
      cases n with
      | zero => exact ⟨0, by simp⟩
      | succ n =>
          obtain ⟨k, hk⟩ := ih n
          by_cases hx : p x = true
          · refine ⟨k + 1, ?_⟩
            rw [List.take_succ_cons, List.filter_cons_of_pos hx,
              List.filter_cons_of_pos hx, List.take_succ_cons, hk]
          · refine ⟨k, ?_⟩
            rw [List.take_succ_cons, List.filter_cons_of_neg hx,
              List.filter_cons_of_neg hx, hk]

/-! ## Claim theorems -/

/-- C1 (code_bug evidence): an item whose date passes the `len(d) < 7` guard
but has a non-integer year field makes `_time_hierarchy` raise (`none`),
instead of being skipped; a short date is skipped and the build returns
normally, showing the guard really is the only protection present. -/
theorem c1_malformed_date_exception :
    time_hierarchy (fun d : String => d) ["2025-1"] = some [] ∧
    time_hierarchy (fun d : String => d) ["bad-date-x"] = none := by
  constructor
  · rfl
  · rfl

/-- C2: the derived bucket path brackets the year, spans exactly 20 years,
and is aligned to the century start. -/
theorem c2_shikinen_bounds (year : Int) (h1 : 1000 ≤ year)
    (h2 : year ≤ 9999) :
    (shikinen_range year).1 ≤ year ∧ year ≤ (shikinen_range year).2 ∧
    (shikinen_range year).2 - (shikinen_range year).1 = 19 ∧
    ((shikinen_range year).1 - 1) % 100 % 20 =
      ((centuryOf year - 1) * 100 + 1 - 1) % 100 % 20 := by
  simp only [shikinen_range, centuryOf]
  rw [Int.fdiv_eq_ediv _ (by norm_num : (0 : Int) ≤ 100),
    Int.fdiv_eq_ediv _ (by norm_num : (0 : Int) ≤ 20)]
  omega

theorem c2_shikinen_bounds_witness :
    (shikinen_range 2024).1 ≤ 2024 ∧ 2024 ≤ (shikinen_range 2024).2 ∧
    (shikinen_range 2024).2 - (shikinen_range 2024).1 = 19 ∧
    ((shikinen_range 2024).1 - 1) % 100 % 20 =
      ((centuryOf 2024 - 1) * 100 + 1 - 1) % 100 % 20 :=
  c2_shikinen_bounds 2024 (by decide) (by decide)

/-- C3: the tree of a successful build partitions the parseable items: the
recursive count equals the number of items with parseable dates; each such
item sits in the leaf at its canonical four-key path; any reachable leaf is
canonical, non-empty, holds exactly the items of its (year, month) in input
order — so an item with an unparseable date is in no leaf — and keys are
duplicate-free at every level (paths are unique). -/
theorem c3_tree_partition (dk : α → String) (items : List α) (t : Tree α)
    (h : time_hierarchy dk items = some t) :
    count_items_tree t =
      items.countP (fun it => (dateParsed (dk it)).isSome) ∧
    (∀ it ∈ items, ∀ y m : Int, dateParsed (dk it) = some (y, m) →
      lookupLeaf t (centuryOf y) (shikinen_range y) y m =
          some (itemsAt dk items y m) ∧ it ∈ itemsAt dk items y m) ∧
    (∀ (c : Int) (sh : Int × Int) (y m : Int) (l : List α),
      lookupLeaf t c sh y m = some l →
      c = centuryOf y ∧ sh = shikinen_range y ∧ l = itemsAt dk items y m ∧
        l ≠ [] ∧ ∀ it ∈ l, dateParsed (dk it) = some (y, m)) ∧
    nodupT t := by
  have ht := time_hierarchy_eq h
  refine ⟨?_, ?_, ?_, ?_⟩
  · rw [ht, count_items_tree_sort (nodupT_pureBuild _),
      count_items_tree_pureBuild, validOf_length]
    simp [count_items_tree]
  · intro it hit y m hym
    have hmem : it ∈ itemsAt dk items y m := by
      rw [itemsAt, List.mem_filter]
      exact ⟨hit, decide_eq_true hym⟩
    have hne : (itemsAt dk items y m).isEmpty = false := by
      cases hl : itemsAt dk items y m with
      | nil => rw [hl] at hmem; exact absurd hmem (List.not_mem_nil it)
      | cons a as => rfl
    rw [lookupLeaf_time_hierarchy h, if_pos ⟨rfl, rfl, hne⟩]
    exact ⟨rfl, hmem⟩
  · intro c sh y m l hl
    rw [lookupLeaf_time_hierarchy h] at hl
    by_cases hc : c = centuryOf y ∧ sh = shikinen_range y ∧
        (itemsAt dk items y m).isEmpty = false
    · rw [if_pos hc] at hl
      have hleq : l = itemsAt dk items y m := (Option.some.inj hl).symm
      refine ⟨hc.1, hc.2.1, hleq, ?_, ?_⟩
      · intro hnil
        rw [hleq] at hnil
        rw [hnil] at hc
        exact absurd hc.2.2 (by simp [List.isEmpty])
      · intro it hit
        rw [hleq, itemsAt, List.mem_filter] at hit
        exact of_decide_eq_true hit.2
    · rw [if_neg hc] at hl
      exact Option.noConfusion hl
  · rw [ht]
    exact nodupT_sort_tree (nodupT_pureBuild _)

theorem c3_tree_partition_witness : nodupT wTree :=
  (c3_tree_partition (fun d => d) wItems wTree (by rfl)).2.2.2

/-- C7: the recent selector returns at most 10 items, sorted descending by
date string (lexicographically), and the occurrences of any fixed date value
form a prefix of that date's occurrences in the input — items with equal
dates keep their input order (stability). -/
theorem c7_recent_selector (dk : α → String) (l : List α) :
    (recent_items dk l).length ≤ 10 ∧
    (recent_items dk l).Pairwise (fun a b => dk b ≤ dk a) ∧
    ∀ d : String, ∃ k,
      (recent_items dk l).filter (fun x => decide (dk x = d)) =
        (l.filter (fun x => decide (dk x = d))).take k := by
  refine ⟨?_, ?_, ?_⟩
  · rw [recent_items]
    exact List.length_take_le _ _
  · have hs := sSortBy_pairwise (keyDesc_total dk) (keyDesc_trans dk) l
    have hp : (recent_items dk l).Pairwise
        (fun a b => keyDesc dk a b = true) :=
      List.Pairwise.sublist (List.take_sublist _ _) hs
    exact hp.imp (fun hab => (strLe_iff _ _).mp hab)
  · intro d
    have hstab : (sSortBy (keyDesc dk) l).filter (fun x => decide (dk x = d)) =
        l.filter (fun x => decide (dk x = d)) := by
      apply sSortBy_filter_stable
      intro a b ha hb
      have ha' : dk a = d := of_decide_eq_true ha
      have hb' : dk b = d := of_decide_eq_true hb
      have : keyDesc dk a b = strLe (dk b) (dk a) := rfl
      rw [this, hb', ha']
      exact strLe_refl d
    obtain ⟨k, hk⟩ := filter_take (fun x => decide (dk x = d))
      (sSortBy (keyDesc dk) l) 10
    refine ⟨k, ?_⟩
    rw [recent_items, hk, hstab]

/-- C8: every item — also one with an empty date — is kept by the recent
sort (it is a permutation of the input), the empty-dated items form the
final segment of the sorted output, and in the concrete two-item scenario
the empty-dated item appears last in the selection while being absent from
every leaf of the bucketer's tree. -/
theorem c8_empty_date_items (dk : α → String) (l : List α) :
    (sSortBy (keyDesc dk) l).Perm l ∧
    sSortBy (keyDesc dk) l =
      (sSortBy (keyDesc dk) l).filter (fun x => decide (dk x ≠ "")) ++
      (sSortBy (keyDesc dk) l).filter (fun x => decide (dk x = "")) ∧
    recent_items (fun d : String => d) ["2025-01-01", ""] =
      ["2025-01-01", ""] ∧
    time_hierarchy (fun d : String => d) ["2025-01-01", ""] =
      some [(21, [((2021, 2040), [(2025, [(1, ["2025-01-01"])])])])] ∧
    "" ∉ entriesOf ((time_hierarchy (fun d : String => d)
      ["2025-01-01", ""]).getD []) := by
  refine ⟨sSortBy_perm _ _, ?_, by rfl, by rfl, by decide⟩
  exact sorted_desc_empty_last dk _
    (sSortBy_pairwise (keyDesc_total dk) (keyDesc_trans dk) l)

/-! ## Lemmas: the renderer -/

theorem erase_arender_m (ri : α → β) (s : Strings) (collapsed single : Bool)
    (sibs : Nat) (pfx : List Nat) (ml : MonthMap α) :
    ∀ (i : Nat) (isf : Bool),
    (arender_m ri s collapsed single sibs pfx ml i isf).map (List.map eraseA) =
      render_m ri s collapsed single ml i isf := by
  induction ml with
  | nil => intro i isf; rfl
  | cons hd rest ih =>
      intro i isf
      obtain ⟨k, items⟩ := hd
      simp only [arender_m, render_m]
      cases hml : month_label k s with
      | none => rfl
      | some lb =>
          rw [← ih (i + 1) isf]
          cases htl : arender_m ri s collapsed single sibs pfx rest (i + 1) isf with
          | none => rfl
          | some tl =>
              simp [eraseA, List.map_map, Function.comp_def, List.map_append]

theorem erase_arender_y (ri : α → β) (s : Strings) (collapsed single : Bool)
    (sibs : Nat) (pfx : List Nat) (yl : YearMap α) :
    ∀ (i : Nat) (isf : Bool),
    (arender_y ri s collapsed single sibs pfx yl i isf).map (List.map eraseA) =
      render_y ri s collapsed single yl i isf := by
  induction yl with
  | nil => intro i isf; rfl
  | cons hd rest ih =>
      intro i isf
      obtain ⟨k, ml⟩ := hd
      simp only [arender_y, render_y]
      rw [← erase_arender_m ri s collapsed (ml.length == 1) ml.length
        (pfx ++ [i]) ml 0 ((i == 0) && isf)]
      cases hch : arender_m ri s collapsed (ml.length == 1) ml.length
          (pfx ++ [i]) ml 0 ((i == 0) && isf) with
      | none => rfl
      | some ch =>
          rw [← ih (i + 1) isf]
          cases htl : arender_y ri s collapsed single sibs pfx rest (i + 1) isf with
          | none => rfl
          | some tl =>
              simp [eraseA, List.map_map, Function.comp_def, List.map_append]

theorem erase_arender_sh (ri : α → β) (s : Strings) (collapsed single : Bool)
    (sibs : Nat) (pfx : List Nat) (sl : ShMap α) :
    ∀ (i : Nat) (isf : Bool),
    (arender_sh ri s collapsed single sibs pfx sl i isf).map (List.map eraseA) =
      render_sh ri s collapsed single sl i isf := by
  induction sl with
  | nil => intro i isf; rfl
  | cons hd rest ih =>
      intro i isf
      obtain ⟨k, yl⟩ := hd
      simp only [arender_sh, render_sh]
      rw [← erase_arender_y ri s collapsed (yl.length == 1) yl.length
        (pfx ++ [i]) yl 0 ((i == 0) && isf)]
      cases hch : arender_y ri s collapsed (yl.length == 1) yl.length
          (pfx ++ [i]) yl 0 ((i == 0) && isf) with
      | none => rfl
      | some ch =>
          rw [← ih (i + 1) isf]
          cases htl : arender_sh ri s collapsed single sibs pfx rest (i + 1) isf with
          | none => rfl
          | some tl =>
              simp [eraseA, List.map_map, Function.comp_def, List.map_append]

theorem erase_arender_c (ri : α → β) (s : Strings) (collapsed single : Bool)
    (sibs : Nat) (pfx : List Nat) (t : Tree α) :
    ∀ (i : Nat) (isf : Bool),
    (arender_c ri s collapsed single sibs pfx t i isf).map (List.map eraseA) =
      render_c ri s collapsed single t i isf := by
  induction t with
  | nil => intro i isf; rfl
  | cons hd rest ih =>
      intro i isf
      obtain ⟨k, sl⟩ := hd
      simp only [arender_c, render_c]
      rw [← erase_arender_sh ri s collapsed (sl.length == 1) sl.length
        (pfx ++ [i]) sl 0 ((i == 0) && isf)]
      cases hch : arender_sh ri s collapsed (sl.length == 1) sl.length
          (pfx ++ [i]) sl 0 ((i == 0) && isf) with
      | none => rfl
      | some ch =>
          rw [← ih (i + 1) isf]
          cases htl : arender_c ri s collapsed single sibs pfx rest (i + 1) isf with
          | none => rfl
          | some tl =>
              simp [eraseA, List.map_map, Function.comp_def, List.map_append]

theorem erase_arender_time_groups (t : Tree α) (ri : α → β) (s : Strings)
    (collapsed : Bool) :
    (arender_time_groups t ri s collapsed).map (List.map eraseA) =
      render_time_groups t ri s collapsed :=
  erase_arender_c ri s collapsed (t.length == 1) t.length [] t 0 true

theorem arender_m_closed (ri : α → β) (s : Strings) (single : Bool)
    (sibs : Nat) (pfx : List Nat) (ml : MonthMap α) :
    ∀ (i : Nat) (isf : Bool) (ps : List (APart β)),
    arender_m ri s true single sibs pfx ml i isf = some ps →
    ∀ lv oc lb ct pa sb, APart.group lv oc lb ct pa sb ∈ ps → oc = "" := by
  induction ml with
  | nil =>
      intro i isf ps h lv oc lb ct pa sb hmem
      have : ps = [] := (Option.some.inj h).symm
      rw [this] at hmem
      exact absurd hmem (List.not_mem_nil _)
  | cons hd rest ih =>
      intro i isf ps h lv oc lb ct pa sb hmem
      obtain ⟨k, items⟩ := hd
      simp only [arender_m] at h
      cases hml : month_label k s with
      | none => rw [hml] at h; exact Option.noConfusion h
      | some lb' =>
          rw [hml] at h
          cases htl : arender_m ri s true single sibs pfx rest (i + 1) isf with
          | none => rw [htl] at h; exact Option.noConfusion h
          | some tl =>
              rw [htl] at h
              have hps := (Option.some.inj h).symm
              rw [hps] at hmem
              rcases List.mem_cons.mp hmem with heq | hmem'
              · cases heq
                rfl
              · rcases List.mem_append.mp hmem' with hmem2 | hmem3
                · obtain ⟨it, _, heq⟩ := List.mem_map.mp hmem2
                  exact APart.noConfusion heq
                · rcases List.mem_cons.mp hmem3 with heq | hmem4
                  · exact APart.noConfusion heq
                  · exact ih (i + 1) isf tl htl lv oc lb ct pa sb hmem4

theorem arender_y_closed (ri : α → β) (s : Strings) (single : Bool)
    (sibs : Nat) (pfx : List Nat) (yl : YearMap α) :
    ∀ (i : Nat) (isf : Bool) (ps : List (APart β)),
    arender_y ri s true single sibs pfx yl i isf = some ps →
    ∀ lv oc lb ct pa sb, APart.group lv oc lb ct pa sb ∈ ps → oc = "" := by
  induction yl with
  | nil =>
      intro i isf ps h lv oc lb ct pa sb hmem
      have : ps = [] := (Option.some.inj h).symm
      rw [this] at hmem
      exact absurd hmem (List.not_mem_nil _)
  | cons hd rest ih =>
      intro i isf ps h lv oc lb ct pa sb hmem
      obtain ⟨k, ml⟩ := hd
      simp only [arender_y] at h
      cases hch : arender_m ri s true (ml.length == 1) ml.length (pfx ++ [i])
          ml 0 ((i == 0) && isf) with
      | none => rw [hch] at h; exact Option.noConfusion h
      | some ch =>
          rw [hch] at h
          cases htl : arender_y ri s true single sibs pfx rest (i + 1) isf with
          | none => rw [htl] at h; exact Option.noConfusion h
          | some tl =>
              rw [htl] at h
              have hps := (Option.some.inj h).symm
              rw [hps] at hmem
              rcases List.mem_cons.mp hmem with heq | hmem'
              · cases heq
                rfl
              · rcases List.mem_append.mp hmem' with hmem2 | hmem3
                · exact arender_m_closed ri s (ml.length == 1) ml.length
                    (pfx ++ [i]) ml 0 ((i == 0) && isf) ch hch
                    lv oc lb ct pa sb hmem2
                · rcases List.mem_cons.mp hmem3 with heq | hmem4
                  · exact APart.noConfusion heq
                  · exact ih (i + 1) isf tl htl lv oc lb ct pa sb hmem4

theorem arender_sh_closed (ri : α → β) (s : Strings) (single : Bool)
    (sibs : Nat) (pfx : List Nat) (sl : ShMap α) :
    ∀ (i : Nat) (isf : Bool) (ps : List (APart β)),
    arender_sh ri s true single sibs pfx sl i isf = some ps →
    ∀ lv oc lb ct pa sb, APart.group lv oc lb ct pa sb ∈ ps → oc = "" := by
  induction sl with
  | nil =>
      intro i isf ps h lv oc lb ct pa sb hmem
      have : ps = [] := (Option.some.inj h).symm
      rw [this] at hmem
      exact absurd hmem (List.not_mem_nil _)
  | cons hd rest ih =>
      intro i isf ps h lv oc lb ct pa sb hmem
      obtain ⟨k, yl⟩ := hd
      simp only [arender_sh] at h
      cases hch : arender_y ri s true (yl.length == 1) yl.length (pfx ++ [i])
          yl 0 ((i == 0) && isf) with
      | none => rw [hch] at h; exact Option.noConfusion h
      | some ch =>
          rw [hch] at h
          cases htl : arender_sh ri s true single sibs pfx rest (i + 1) isf with
          | none => rw [htl] at h; exact Option.noConfusion h
          | some tl =>
              rw [htl] at h
              have hps := (Option.some.inj h).symm
              rw [hps] at hmem
              rcases List.mem_cons.mp hmem with heq | hmem'
              · cases heq
                rfl
              · rcases List.mem_append.mp hmem' with hmem2 | hmem3
                · exact arender_y_closed ri s (yl.length == 1) yl.length
                    (pfx ++ [i]) yl 0 ((i == 0) && isf) ch hch
                    lv oc lb ct pa sb hmem2
                · rcases List.mem_cons.mp hmem3 with heq | hmem4
                  · exact APart.noConfusion heq
                  · exact ih (i + 1) isf tl htl lv oc lb ct pa sb hmem4

theorem arender_c_closed (ri : α → β) (s : Strings) (single : Bool)
    (sibs : Nat) (pfx : List Nat) (t : Tree α) :
    ∀ (i : Nat) (isf : Bool) (ps : List (APart β)),
    arender_c ri s true single sibs pfx t i isf = some ps →
    ∀ lv oc lb ct pa sb, APart.group lv oc lb ct pa sb ∈ ps → oc = "" := by
  induction t with
  | nil =>
      intro i isf ps h lv oc lb ct pa sb hmem
      have : ps = [] := (Option.some.inj h).symm
      rw [this] at hmem
      exact absurd hmem (List.not_mem_nil _)
  | cons hd rest ih =>
      intro i isf ps h lv oc lb ct pa sb hmem
      obtain ⟨k, sl⟩ := hd
      simp only [arender_c] at h
      cases hch : arender_sh ri s true (sl.length == 1) sl.length (pfx ++ [i])
          sl 0 ((i == 0) && isf) with
      | none => rw [hch] at h; exact Option.noConfusion h
      | some ch =>
          rw [hch] at h
          cases htl : arender_c ri s true single sibs pfx rest (i + 1) isf with
          | none => rw [htl] at h; exact Option.noConfusion h
          | some tl =>
              rw [htl] at h
              have hps := (Option.some.inj h).symm
              rw [hps] at hmem
              rcases List.mem_cons.mp hmem with heq | hmem'
              · cases heq
                rfl
              · rcases List.mem_append.mp hmem' with hmem2 | hmem3
                · exact arender_sh_closed ri s (sl.length == 1) sl.length
                    (pfx ++ [i]) sl 0 ((i == 0) && isf) ch hch
                    lv oc lb ct pa sb hmem2
                · rcases List.mem_cons.mp hmem3 with heq | hmem4
                  · exact APart.noConfusion heq
                  · exact ih (i + 1) isf tl htl lv oc lb ct pa sb hmem4

/-- The head group's open class, as an iff against the path condition. -/
theorem open_class_head_iff {i sibs : Nat} {isf : Bool} {pfx : List Nat}
    (hinv : isf = pfx.all (fun n => n == 0)) :
    (if ((i == 0) && isf) || (sibs == 1) then " open" else "") = " open" ↔
      ((pfx ++ [i]).all (fun n => n == 0) = true ∨ sibs = 1) := by
  rw [List.all_append]
  by_cases hcond : (((i == 0) && isf) || (sibs == 1)) = true
  · rw [if_pos hcond]
    constructor
    · intro _
      rw [Bool.or_eq_true, Bool.and_eq_true] at hcond
      rcases hcond with ⟨hi, hisf⟩ | hs
      · refine Or.inl ?_
        rw [Bool.and_eq_true, ← hinv]
        exact ⟨hisf, by simp [hi]⟩
      · exact Or.inr (by simpa using hs)
    · intro _
      rfl
  · rw [if_neg hcond]
    constructor
    · intro hcon
      exact absurd hcon (by decide)
    · intro hcon
      exfalso
      apply hcond
      rw [Bool.or_eq_true, Bool.and_eq_true]
      rcases hcon with hall | hsib
      · rw [Bool.and_eq_true, ← hinv] at hall
        refine Or.inl ⟨?_, hall.1⟩
        simpa using hall.2
      · exact Or.inr (by simp [hsib])

theorem arender_m_open (ri : α → β) (s : Strings) (single : Bool)
    (sibs : Nat) (pfx : List Nat) (ml : MonthMap α)
    (hsingle : single = (sibs == 1)) :
    ∀ (i : Nat) (isf : Bool) (ps : List (APart β)),
    arender_m ri s false single sibs pfx ml i isf = some ps →
    isf = pfx.all (fun n => n == 0) →
    ∀ lv oc lb ct pa sb, APart.group lv oc lb ct pa sb ∈ ps →
      (oc = " open" ↔ (pa.all (fun n => n == 0) = true ∨ sb = 1)) := by
  induction ml with
  | nil =>
      intro i isf ps h hinv lv oc lb ct pa sb hmem
      have : ps = [] := (Option.some.inj h).symm
      rw [this] at hmem
      exact absurd hmem (List.not_mem_nil _)
  | cons hd rest ih =>
      intro i isf ps h hinv lv oc lb ct pa sb hmem
      obtain ⟨k, items⟩ := hd
      simp only [arender_m] at h
      cases hml : month_label k s with
      | none => rw [hml] at h; exact Option.noConfusion h
      | some lb' =>
          rw [hml] at h
          cases htl : arender_m ri s false single sibs pfx rest (i + 1) isf with
          | none => rw [htl] at h; exact Option.noConfusion h
          | some tl =>
              rw [htl] at h
              have hps := (Option.some.inj h).symm
              rw [hps] at hmem
              rcases List.mem_cons.mp hmem with heq | hmem'
              · cases heq
                rw [hsingle]
                exact open_class_head_iff hinv
              · rcases List.mem_append.mp hmem' with hmem2 | hmem3
                · obtain ⟨it, _, heq⟩ := List.mem_map.mp hmem2
                  exact APart.noConfusion heq
                · rcases List.mem_cons.mp hmem3 with heq | hmem4
                  · exact APart.noConfusion heq
                  · exact ih (i + 1) isf tl htl hinv lv oc lb ct pa sb hmem4

theorem arender_y_open (ri : α → β) (s : Strings) (single : Bool)
    (sibs : Nat) (pfx : List Nat) (yl : YearMap α)
    (hsingle : single = (sibs == 1)) :
    ∀ (i : Nat) (isf : Bool) (ps : List (APart β)),
    arender_y ri s false single sibs pfx yl i isf = some ps →
    isf = pfx.all (fun n => n == 0) →
    ∀ lv oc lb ct pa sb, APart.group lv oc lb ct pa sb ∈ ps →
      (oc = " open" ↔ (pa.all (fun n => n == 0) = true ∨ sb = 1)) := by
  induction yl with
  | nil =>
      intro i isf ps h hinv lv oc lb ct pa sb hmem
      have : ps = [] := (Option.some.inj h).symm
      rw [this] at hmem
      exact absurd hmem (List.not_mem_nil _)
  | cons hd rest ih =>
      intro i isf ps h hinv lv oc lb ct pa sb hmem
      obtain ⟨k, ml⟩ := hd
      simp only [arender_y] at h
      cases hch : arender_m ri s false (ml.length == 1) ml.length (pfx ++ [i])
          ml 0 ((i == 0) && isf) with
      | none => rw [hch] at h; exact Option.noConfusion h
      | some ch =>
          rw [hch] at h
          cases htl : arender_y ri s false single sibs pfx rest (i + 1) isf with
          | none => rw [htl] at h; exact Option.noConfusion h
          | some tl =>
              rw [htl] at h
              have hps := (Option.some.inj h).symm
              rw [hps] at hmem
              have hinv' : ((i == 0) && isf) =
                  (pfx ++ [i]).all (fun n => n == 0) := by
                rw [List.all_append, ← hinv]
                simp [Bool.and_comm]
              rcases List.mem_cons.mp hmem with heq | hmem'
              · cases heq
                rw [hsingle]
                exact open_class_head_iff hinv
              · rcases List.mem_append.mp hmem' with hmem2 | hmem3
                · exact arender_m_open ri s (ml.length == 1) ml.length
                    (pfx ++ [i]) ml rfl 0 ((i == 0) && isf) ch hch hinv'
                    lv oc lb ct pa sb hmem2
                · rcases List.mem_cons.mp hmem3 with heq | hmem4
                  · exact APart.noConfusion heq
                  · exact ih (i + 1) isf tl htl hinv lv oc lb ct pa sb hmem4

theorem arender_sh_open (ri : α → β) (s : Strings) (single : Bool)
    (sibs : Nat) (pfx : List Nat) (sl : ShMap α)
    (hsingle : single = (sibs == 1)) :
    ∀ (i : Nat) (isf : Bool) (ps : List (APart β)),
    arender_sh ri s false single sibs pfx sl i isf = some ps →
    isf = pfx.all (fun n => n == 0) →
    ∀ lv oc lb ct pa sb, APart.group lv oc lb ct pa sb ∈ ps →
      (oc = " open" ↔ (pa.all (fun n => n == 0) = true ∨ sb = 1)) := by
  induction sl with
  | nil =>
      intro i isf ps h hinv lv oc lb ct pa sb hmem
      have : ps = [] := (Option.some.inj h).symm
      rw [this] at hmem
      exact absurd hmem (List.not_mem_nil _)
  | cons hd rest ih =>
      intro i isf ps h hinv lv oc lb ct pa sb hmem
      obtain ⟨k, yl⟩ := hd
      simp only [arender_sh] at h
      cases hch : arender_y ri s false (yl.length == 1) yl.length (pfx ++ [i])
          yl 0 ((i == 0) && isf) with
      | none => rw [hch] at h; exact Option.noConfusion h
      | some ch =>
          rw [hch] at h
          cases htl : arender_sh ri s false single sibs pfx rest (i + 1) isf with
          | none => rw [htl] at h; exact Option.noConfusion h
          | some tl =>
              rw [htl] at h
              have hps := (Option.some.inj h).symm
              rw [hps] at hmem
              have hinv' : ((i == 0) && isf) =
                  (pfx ++ [i]).all (fun n => n == 0) := by
                rw [List.all_append, ← hinv]
                simp [Bool.and_comm]
              rcases List.mem_cons.mp hmem with heq | hmem'
              · cases heq
                rw [hsingle]
                exact open_class_head_iff hinv
              · rcases List.mem_append.mp hmem' with hmem2 | hmem3
                · exact arender_y_open ri s (yl.length == 1) yl.length
                    (pfx ++ [i]) yl rfl 0 ((i == 0) && isf) ch hch hinv'
                    lv oc lb ct pa sb hmem2
                · rcases List.mem_cons.mp hmem3 with heq | hmem4
                  · exact APart.noConfusion heq
                  · exact ih (i + 1) isf tl htl hinv lv oc lb ct pa sb hmem4

theorem arender_c_open (ri : α → β) (s : Strings) (single : Bool)
    (sibs : Nat) (pfx : List Nat) (t : Tree α)
    (hsingle : single = (sibs == 1)) :
    ∀ (i : Nat) (isf : Bool) (ps : List (APart β)),
    arender_c ri s false single sibs pfx t i isf = some ps →
    isf = pfx.all (fun n => n == 0) →
    ∀ lv oc lb ct pa sb, APart.group lv oc lb ct pa sb ∈ ps →
      (oc = " open" ↔ (pa.all (fun n => n == 0) = true ∨ sb = 1)) := by
  induction t with
  | nil =>
      intro i isf ps h hinv lv oc lb ct pa sb hmem
      have : ps = [] := (Option.some.inj h).symm
      rw [this] at hmem
      exact absurd hmem (List.not_mem_nil _)
  | cons hd rest ih =>
      intro i isf ps h hinv lv oc lb ct pa sb hmem
      obtain ⟨k, sl⟩ := hd
      simp only [arender_c] at h
      cases hch : arender_sh ri s false (sl.length == 1) sl.length (pfx ++ [i])
          sl 0 ((i == 0) && isf) with
      | none => rw [hch] at h; exact Option.noConfusion h
      | some ch =>
          rw [hch] at h
          cases htl : arender_c ri s false single sibs pfx rest (i + 1) isf with
          | none => rw [htl] at h; exact Option.noConfusion h
          | some tl =>
              rw [htl] at h
              have hps := (Option.some.inj h).symm
              rw [hps] at hmem
              have hinv' : ((i == 0) && isf) =
                  (pfx ++ [i]).all (fun n => n == 0) := by
                rw [List.all_append, ← hinv]
                simp [Bool.and_comm]
              rcases List.mem_cons.mp hmem with heq | hmem'
              · cases heq
                rw [hsingle]
                exact open_class_head_iff hinv
              · rcases List.mem_append.mp hmem' with hmem2 | hmem3
                · exact arender_sh_open ri s (sl.length == 1) sl.length
                    (pfx ++ [i]) sl rfl 0 ((i == 0) && isf) ch hch hinv'
                    lv oc lb ct pa sb hmem2
                · rcases List.mem_cons.mp hmem3 with heq | hmem4
                  · exact APart.noConfusion heq
                  · exact ih (i + 1) isf tl htl hinv lv oc lb ct pa sb hmem4

/-- C5: the rendered accordion marks every group closed when
`forceCollapsed` holds, and otherwise marks a group open exactly when it
lies on the newest-first spine (all `enumerate` indices on its path are
zero) or it is its parent's only child; the annotated parts erase to the
renderer's output. -/
theorem c5_open_closed_rule (t : Tree α) (ri : α → β) (s : Strings)
    (psC psO : List (APart β))
    (hC : arender_time_groups t ri s true = some psC)
    (hO : arender_time_groups t ri s false = some psO) :
    render_time_groups t ri s true = some (psC.map eraseA) ∧
    render_time_groups t ri s false = some (psO.map eraseA) ∧
    (∀ lv oc lb ct pa sb, APart.group lv oc lb ct pa sb ∈ psC → oc = "") ∧
    (∀ lv oc lb ct pa sb, APart.group lv oc lb ct pa sb ∈ psO →
      (oc = " open" ↔ (pa.all (fun n => n == 0) = true ∨ sb = 1))) := by
  refine ⟨?_, ?_, ?_, ?_⟩
  · rw [← erase_arender_time_groups, hC]
    rfl
  · rw [← erase_arender_time_groups, hO]
    rfl
  · exact arender_c_closed ri s (t.length == 1) t.length [] t 0 true psC hC
  · exact arender_c_open ri s (t.length == 1) t.length [] t rfl 0 true psO
      hO rfl

theorem c5_open_closed_rule_witness :
    render_time_groups wTree (fun d : String => d) enStrings true =
      some (wPartsC.map eraseA) :=
  (c5_open_closed_rule wTree (fun d => d) enStrings wPartsC wParts
    (by rfl) (by rfl)).1

/-- C9: the English century label carries the ordinal suffix given by the
claim's rule (11–13 mod 100 take "th", otherwise the last digit decides),
while the Japanese label is the number followed by the fixed suffix word. -/
theorem c9_century_label (c : Int) (h : 1 ≤ c) :
    century_label c enStrings =
      toString c ++ specCenturySuffix c ++ " century" ∧
    century_label c jaStrings = toString c ++ "世紀" := by
  constructor
  · rw [century_label, if_neg (by decide), specCenturySuffix, lastDigitSuffix]
  · rw [century_label, if_pos (by decide)]
    rfl

/-! ## Lemmas: shape of the sorted tree (for the permutation claim) -/

theorem shikinen_snd (y : Int) :
    (shikinen_range y).2 = (shikinen_range y).1 + 19 := rfl

theorem strictDescI_of_sorted_nodup {l : List Int}
    (hs : l.Pairwise (fun a b => intDesc a b = true)) (hnd : l.Nodup) :
    strictDescI l := by
  refine (hs.and hnd).imp ?_
  rintro a b ⟨h1, h2⟩
  have h1' : b ≤ a := of_decide_eq_true h1
  omega

theorem strictDescP_of_sorted_nodup {l : List (Int × Int)}
    (hs : l.Pairwise (fun a b => pairDesc a b = true)) (hnd : l.Nodup)
    (hrange : ∀ p ∈ l, ∃ y, p = shikinen_range y) : strictDescP l := by
  refine List.Pairwise.imp_of_mem ?_ (hs.and hnd)
  rintro a b ha hb ⟨h1, h2⟩
  obtain ⟨ya, hya⟩ := hrange a ha
  obtain ⟨yb, hyb⟩ := hrange b hb
  simp only [pairDesc, pairLe, Bool.or_eq_true, Bool.and_eq_true,
    decide_eq_true_eq] at h1
  rcases h1 with h1 | ⟨heq, hle⟩
  · exact h1
  · exfalso
    apply h2
    have ha2 : a.2 = a.1 + 19 := by rw [hya]; exact shikinen_snd ya
    have hb2 : b.2 = b.1 + 19 := by rw [hyb]; exact shikinen_snd yb
    exact Prod.ext heq.symm (by omega)

/-- The keys at each level, given by membership; the value under a present
key, given by the filtered entry list. -/
theorem getD_lookupA_buildM {v : List ((Int × Int) × α)} {k : Int}
    (hk : k ∈ keysOf (buildM v)) :
    (lookupA (buildM v) k).getD [] =
      (v.filter (fun e => decide (e.1.2 = k))).map (fun e => e.2) := by
  rw [lookupA_buildM]
  cases hf : v.filter (fun e => decide (e.1.2 = k)) with
  | nil =>
      exfalso
      obtain ⟨e, he, hek⟩ := (mem_keysOf_buildM v k).mp hk
      have : e ∈ v.filter (fun e => decide (e.1.2 = k)) :=
        List.mem_filter.mpr ⟨he, decide_eq_true hek⟩
      rw [hf] at this
      exact List.not_mem_nil e this
  | cons f fs => rfl

theorem getD_lookupA_buildY {v : List ((Int × Int) × α)} {k : Int}
    (hk : k ∈ keysOf (buildY v)) :
    (lookupA (buildY v) k).getD [] =
      buildM (v.filter (fun e => decide (e.1.1 = k))) := by
  rw [lookupA_buildY]
  cases hf : v.filter (fun e => decide (e.1.1 = k)) with
  | nil =>
      exfalso
      obtain ⟨e, he, hek⟩ := (mem_keysOf_buildY v k).mp hk
      have : e ∈ v.filter (fun e => decide (e.1.1 = k)) :=
        List.mem_filter.mpr ⟨he, decide_eq_true hek⟩
      rw [hf] at this
      exact List.not_mem_nil e this
  | cons f fs => rfl

theorem getD_lookupA_buildSh {v : List ((Int × Int) × α)} {k : Int × Int}
    (hk : k ∈ keysOf (buildSh v)) :
    (lookupA (buildSh v) k).getD [] =
      buildY (v.filter (fun e => decide (shikinen_range e.1.1 = k))) := by
  rw [lookupA_buildSh]
  cases hf : v.filter (fun e => decide (shikinen_range e.1.1 = k)) with
  | nil =>
      exfalso
      obtain ⟨e, he, hek⟩ := (mem_keysOf_buildSh v k).mp hk
      have : e ∈ v.filter (fun e => decide (shikinen_range e.1.1 = k)) :=
        List.mem_filter.mpr ⟨he, decide_eq_true hek⟩
      rw [hf] at this
      exact List.not_mem_nil e this
  | cons f fs => rfl

theorem getD_lookupA_pureBuild {v : List ((Int × Int) × α)} {k : Int}
    (hk : k ∈ keysOf (pureBuild [] v)) :
    (lookupA (pureBuild [] v) k).getD [] =
      buildSh (v.filter (fun e => decide (centuryOf e.1.1 = k))) := by
  rw [lookupA_pureBuild]
  cases hf : v.filter (fun e => decide (centuryOf e.1.1 = k)) with
  | nil =>
      exfalso
      obtain ⟨e, he, hek⟩ := (mem_keysOf_pureBuild v k).mp hk
      have : e ∈ v.filter (fun e => decide (centuryOf e.1.1 = k)) :=
        List.mem_filter.mpr ⟨he, decide_eq_true hek⟩
      rw [hf] at this
      exact List.not_mem_nil e this
  | cons f fs => rfl

/-- Equal sorted key lists for permutation-equal entry lists, per level. -/
theorem sorted_keys_buildM_of_perm {v v' : List ((Int × Int) × α)}
    (hp : v.Perm v') :
    sSortBy intDesc (keysOf (buildM v)) = sSortBy intDesc (keysOf (buildM v')) := by
  apply sSortBy_eq_of_mem_iff intDesc_total intDesc_trans intDesc_anti
    (nodup_keysOf_buildM v) (nodup_keysOf_buildM v')
  intro k
  rw [mem_keysOf_buildM, mem_keysOf_buildM]
  constructor
  · rintro ⟨e, he, hk⟩; exact ⟨e, hp.mem_iff.mp he, hk⟩
  · rintro ⟨e, he, hk⟩; exact ⟨e, hp.mem_iff.mpr he, hk⟩

theorem sorted_keys_buildY_of_perm {v v' : List ((Int × Int) × α)}
    (hp : v.Perm v') :
    sSortBy intDesc (keysOf (buildY v)) = sSortBy intDesc (keysOf (buildY v')) := by
  apply sSortBy_eq_of_mem_iff intDesc_total intDesc_trans intDesc_anti
    (nodup_keysOf_buildY v) (nodup_keysOf_buildY v')
  intro k
  rw [mem_keysOf_buildY, mem_keysOf_buildY]
  constructor
  · rintro ⟨e, he, hk⟩; exact ⟨e, hp.mem_iff.mp he, hk⟩
  · rintro ⟨e, he, hk⟩; exact ⟨e, hp.mem_iff.mpr he, hk⟩

theorem sorted_keys_buildSh_of_perm {v v' : List ((Int × Int) × α)}
    (hp : v.Perm v') :
    sSortBy pairDesc (keysOf (buildSh v)) =
      sSortBy pairDesc (keysOf (buildSh v')) := by
  apply sSortBy_eq_of_mem_iff pairDesc_total pairDesc_trans pairDesc_anti
    (nodup_keysOf_buildSh v) (nodup_keysOf_buildSh v')
  intro k
  rw [mem_keysOf_buildSh, mem_keysOf_buildSh]
  constructor
  · rintro ⟨e, he, hk⟩; exact ⟨e, hp.mem_iff.mp he, hk⟩
  · rintro ⟨e, he, hk⟩; exact ⟨e, hp.mem_iff.mpr he, hk⟩

theorem sorted_keys_pureBuild_of_perm {v v' : List ((Int × Int) × α)}
    (hp : v.Perm v') :
    sSortBy intDesc (keysOf (pureBuild [] v)) =
      sSortBy intDesc (keysOf (pureBuild [] v')) := by
  apply sSortBy_eq_of_mem_iff intDesc_total intDesc_trans intDesc_anti
    (nodup_keysOf_pureBuild v) (nodup_keysOf_pureBuild v')
  intro k
  rw [mem_keysOf_pureBuild, mem_keysOf_pureBuild]
  constructor
  · rintro ⟨e, he, hk⟩; exact ⟨e, hp.mem_iff.mp he, hk⟩
  · rintro ⟨e, he, hk⟩; exact ⟨e, hp.mem_iff.mpr he, hk⟩

/-- Unfolding the shape of one sorted level. -/
theorem shape_y_sort_years (yl : YearMap α) :
    shape_y (sort_years yl) =
      (sSortBy intDesc (keysOf yl)).map
        (fun k => (k, keysOf (sort_months ((lookupA yl k).getD [])))) := by
  rw [sort_years, shape_y, List.map_map]
  simp [Function.comp_def]

theorem shape_sh_sort_sh (sl : ShMap α) :
    shape_sh (sort_sh sl) =
      (sSortBy pairDesc (keysOf sl)).map
        (fun k => (k, shape_y (sort_years ((lookupA sl k).getD [])))) := by
  rw [sort_sh, shape_sh, List.map_map]
  simp [Function.comp_def]

theorem shape_tree_sort_tree (t : Tree α) :
    shape_tree (sort_tree t) =
      (sSortBy intDesc (keysOf t)).map
        (fun k => (k, shape_sh (sort_sh ((lookupA t k).getD [])))) := by
  rw [sort_tree, shape_tree, List.map_map]
  simp [Function.comp_def]

/-- Permutation invariance of the shape, level by level. -/
theorem month_keys_of_perm {v v' : List ((Int × Int) × α)} (hp : v.Perm v') :
    keysOf (sort_months (buildM v)) = keysOf (sort_months (buildM v')) := by
  rw [keysOf_sort_months, keysOf_sort_months]
  exact sorted_keys_buildM_of_perm hp

theorem shape_y_of_perm {v v' : List ((Int × Int) × α)} (hp : v.Perm v') :
    shape_y (sort_years (buildY v)) = shape_y (sort_years (buildY v')) := by
  rw [shape_y_sort_years, shape_y_sort_years]
  rw [← sorted_keys_buildY_of_perm hp]
  apply List.map_congr_left
  intro k hk
  have hk1 : k ∈ keysOf (buildY v) := (sSortBy_perm _ _).mem_iff.mp hk
  have hk2 : k ∈ keysOf (buildY v') := by
    rw [mem_keysOf_buildY] at hk1 ⊢
    obtain ⟨e, he, hek⟩ := hk1
    exact ⟨e, hp.mem_iff.mp he, hek⟩
  rw [getD_lookupA_buildY hk1, getD_lookupA_buildY hk2]
  congr 1
  exact month_keys_of_perm (hp.filter _)

theorem shape_sh_of_perm {v v' : List ((Int × Int) × α)} (hp : v.Perm v') :
    shape_sh (sort_sh (buildSh v)) = shape_sh (sort_sh (buildSh v')) := by
  rw [shape_sh_sort_sh, shape_sh_sort_sh]
  rw [← sorted_keys_buildSh_of_perm hp]
  apply List.map_congr_left
  intro k hk
  have hk1 : k ∈ keysOf (buildSh v) := (sSortBy_perm _ _).mem_iff.mp hk
  have hk2 : k ∈ keysOf (buildSh v') := by
    rw [mem_keysOf_buildSh] at hk1 ⊢
    obtain ⟨e, he, hek⟩ := hk1
    exact ⟨e, hp.mem_iff.mp he, hek⟩
  rw [getD_lookupA_buildSh hk1, getD_lookupA_buildSh hk2]
  congr 1
  exact shape_y_of_perm (hp.filter _)

theorem shape_tree_of_perm {v v' : List ((Int × Int) × α)} (hp : v.Perm v') :
    shape_tree (sort_tree (pureBuild [] v)) =
      shape_tree (sort_tree (pureBuild [] v')) := by
  rw [shape_tree_sort_tree, shape_tree_sort_tree]
  rw [← sorted_keys_pureBuild_of_perm hp]
  apply List.map_congr_left
  intro k hk
  have hk1 : k ∈ keysOf (pureBuild [] v) := (sSortBy_perm _ _).mem_iff.mp hk
  have hk2 : k ∈ keysOf (pureBuild [] v') := by
    rw [mem_keysOf_pureBuild] at hk1 ⊢
    obtain ⟨e, he, hek⟩ := hk1
    exact ⟨e, hp.mem_iff.mp he, hek⟩
  rw [getD_lookupA_pureBuild hk1, getD_lookupA_pureBuild hk2]
  congr 1
  exact shape_sh_of_perm (hp.filter _)

/-- Strict descending order of sibling keys at every level of a sorted
built tree. -/
theorem tree_strict_sorted_build (v : List ((Int × Int) × α)) :
    tree_strict (sort_tree (pureBuild [] v)) := by
  constructor
  · rw [keysOf_sort_tree]
    exact strictDescI_of_sorted_nodup
      (sSortBy_pairwise intDesc_total intDesc_trans _)
      (((sSortBy_perm _ _).nodup_iff).mpr (nodup_keysOf_pureBuild v))
  · intro p hp
    rw [sort_tree] at hp
    obtain ⟨k, hk, rfl⟩ := List.mem_map.mp hp
    have hk' : k ∈ keysOf (pureBuild [] v) := (sSortBy_perm _ _).mem_iff.mp hk
    rw [getD_lookupA_pureBuild hk']
    constructor
    · rw [keysOf_sort_sh]
      apply strictDescP_of_sorted_nodup
        (sSortBy_pairwise pairDesc_total pairDesc_trans _)
        (((sSortBy_perm _ _).nodup_iff).mpr (nodup_keysOf_buildSh _))
      intro q hq
      have hq' : q ∈ keysOf (buildSh _) := (sSortBy_perm _ _).mem_iff.mp hq
      obtain ⟨e, _, hek⟩ := (mem_keysOf_buildSh _ q).mp hq'
      exact ⟨e.1.1, hek.symm⟩
    · intro q hq
      rw [sort_sh] at hq
      obtain ⟨k2, hk2, rfl⟩ := List.mem_map.mp hq
      have hk2' : k2 ∈ keysOf (buildSh _) := (sSortBy_perm _ _).mem_iff.mp hk2
      rw [getD_lookupA_buildSh hk2']
      constructor
      · rw [keysOf_sort_years]
        exact strictDescI_of_sorted_nodup
          (sSortBy_pairwise intDesc_total intDesc_trans _)
          (((sSortBy_perm _ _).nodup_iff).mpr (nodup_keysOf_buildY _))
      · intro r hr
        rw [sort_years] at hr
        obtain ⟨k3, hk3, rfl⟩ := List.mem_map.mp hr
        have hk3' : k3 ∈ keysOf (buildY _) := (sSortBy_perm _ _).mem_iff.mp hk3
        rw [getD_lookupA_buildY hk3']
        rw [keysOf_sort_months]
        exact strictDescI_of_sorted_nodup
          (sSortBy_pairwise intDesc_total intDesc_trans _)
          (((sSortBy_perm _ _).nodup_iff).mpr (nodup_keysOf_buildM _))

/-- C4: the tree shape — sibling keys and their order at all four levels —
is invariant under permutation of the input item list, and sibling keys are
strictly descending (cycles by start year) at every level. -/
theorem c4_permutation_isomorphic (dk : α → String) (items items' : List α)
    (t t' : Tree α) (hp : items.Perm items')
    (h : time_hierarchy dk items = some t)
    (h' : time_hierarchy dk items' = some t') :
    shape_tree t = shape_tree t' ∧ tree_strict t := by
  rw [time_hierarchy_eq h, time_hierarchy_eq h']
  refine ⟨shape_tree_of_perm ?_, tree_strict_sorted_build _⟩
  exact hp.filterMap _

theorem c4_permutation_isomorphic_witness :
    shape_tree wTree = shape_tree wTreeP ∧ tree_strict wTree :=
  c4_permutation_isomorphic (fun d => d) wItems wItemsP wTree wTreeP
    (by decide) (by rfl) (by rfl)

/-! ## Lemmas: leaf order at render time, and the issue scan -/

theorem serialDesc_total : ∀ a b, serialDesc a b = false → serialDesc b a = true :=
  fun _ _ h => strLe_total _ _ h

theorem serialDesc_trans : ∀ a b c, serialDesc a b = true →
    serialDesc b c = true → serialDesc a c = true :=
  fun _ _ _ h1 h2 => strLe_trans _ _ _ h2 h1

theorem filterMap_some_comp (f : α → β) (l : List α) :
    l.filterMap (fun x => some (f x)) = l.map f := by
  induction l with
  | nil => rfl
  | cons x xs ih => simp [List.filterMap_cons, ih]

theorem item_frags_group_cons (lv oc lb ct : String) (a b : List (Part β)) :
    item_frags (Part.group lv oc lb ct :: (a ++ Part.close :: b)) =
      item_frags a ++ item_frags b := by
  simp [item_frags, List.filterMap_cons, List.filterMap_append]

theorem item_frags_item_block (lv oc lb ct : String) (g : α → β)
    (items : List α) (b : List (Part β)) :
    item_frags (Part.group lv oc lb ct ::
        (items.map (fun it => Part.item (g it)) ++ Part.close :: b)) =
      items.map g ++ item_frags b := by
  simp [item_frags, List.filterMap_cons, List.filterMap_append,
    List.filterMap_map, Function.comp_def, filterMap_some_comp]

theorem item_frags_render_m {ri : α → β} {s : Strings}
    {collapsed single : Bool} {ml : MonthMap α} :
    ∀ {i : Nat} {isf : Bool} {ps : List (Part β)},
    render_m ri s collapsed single ml i isf = some ps →
    item_frags ps = (ml.flatMap (fun p => p.2)).map ri := by
  induction ml with
  | nil =>
      intro i isf ps h
      rw [← Option.some.inj h]
      rfl
  | cons hd rest ih =>
      intro i isf ps h
      obtain ⟨k, items⟩ := hd
      simp only [render_m] at h
      cases hml : month_label k s with
      | none => rw [hml] at h; exact Option.noConfusion h
      | some lb =>
          rw [hml] at h
          cases htl : render_m ri s collapsed single rest (i + 1) isf with
          | none => rw [htl] at h; exact Option.noConfusion h
          | some tl =>
              rw [htl] at h
              rw [← Option.some.inj h, item_frags_item_block, ih htl]
              simp [List.flatMap_cons]

theorem item_frags_render_y {ri : α → β} {s : Strings}
    {collapsed single : Bool} {yl : YearMap α} :
    ∀ {i : Nat} {isf : Bool} {ps : List (Part β)},
    render_y ri s collapsed single yl i isf = some ps →
    item_frags ps =
      (yl.flatMap (fun p => p.2.flatMap (fun q => q.2))).map ri := by
  induction yl with
  | nil =>
      intro i isf ps h
      rw [← Option.some.inj h]
      rfl
  | cons hd rest ih =>
      intro i isf ps h
      obtain ⟨k, ml⟩ := hd
      simp only [render_y] at h
      cases hch : render_m ri s collapsed (ml.length == 1) ml 0
          ((i == 0) && isf) with
      | none => rw [hch] at h; exact Option.noConfusion h
      | some ch =>
          rw [hch] at h
          cases htl : render_y ri s collapsed single rest (i + 1) isf with
          | none => rw [htl] at h; exact Option.noConfusion h
          | some tl =>
              rw [htl] at h
              rw [← Option.some.inj h, item_frags_group_cons, ih htl,
                item_frags_render_m hch]
              simp [List.flatMap_cons]

theorem item_frags_render_sh {ri : α → β} {s : Strings}
    {collapsed single : Bool} {sl : ShMap α} :
    ∀ {i : Nat} {isf : Bool} {ps : List (Part β)},
    render_sh ri s collapsed single sl i isf = some ps →
    item_frags ps =
      (sl.flatMap (fun p => p.2.flatMap
        (fun q => q.2.flatMap (fun r => r.2)))).map ri := by
  induction sl with
  | nil =>
      intro i isf ps h
      rw [← Option.some.inj h]
      rfl
  | cons hd rest ih =>
      intro i isf ps h
      obtain ⟨k, yl⟩ := hd
      simp only [render_sh] at h
      cases hch : render_y ri s collapsed (yl.length == 1) yl 0
          ((i == 0) && isf) with
      | none => rw [hch] at h; exact Option.noConfusion h
      | some ch =>
          rw [hch] at h
          cases htl : render_sh ri s collapsed single rest (i + 1) isf with
          | none => rw [htl] at h; exact Option.noConfusion h
          | some tl =>
              rw [htl] at h
              rw [← Option.some.inj h, item_frags_group_cons, ih htl,
                item_frags_render_y hch]
              simp [List.flatMap_cons]

theorem item_frags_render_c {ri : α → β} {s : Strings}
    {collapsed single : Bool} {t : Tree α} :
    ∀ {i : Nat} {isf : Bool} {ps : List (Part β)},
    render_c ri s collapsed single t i isf = some ps →
    item_frags ps = (entriesOf t).map ri := by
  induction t with
  | nil =>
      intro i isf ps h
      rw [← Option.some.inj h]
      rfl
  | cons hd rest ih =>
      intro i isf ps h
      obtain ⟨k, sl⟩ := hd
      simp only [render_c] at h
      cases hch : render_sh ri s collapsed (sl.length == 1) sl 0
          ((i == 0) && isf) with
      | none => rw [hch] at h; exact Option.noConfusion h
      | some ch =>
          rw [hch] at h
          cases htl : render_c ri s collapsed single rest (i + 1) isf with
          | none => rw [htl] at h; exact Option.noConfusion h
          | some tl =>
              rw [htl] at h
              rw [← Option.some.inj h, item_frags_group_cons, ih htl,
                item_frags_render_sh hch]
              simp [entriesOf, List.flatMap_cons]

/-- A series entry of the scan is the serial-descending stable sort of the
raw zip-file list of one of the scanned directories, and is non-empty. -/
theorem scan_issues_mem {env : ScanEnv} {dirs : List (String × List String)}
    {sid : String} {iss : List Issue}
    (h : (sid, iss) ∈ scan_issues env dirs) :
    ∃ files, (sid, files) ∈ dirs ∧
      iss = sSortBy serialDesc (raw_issues env sid files) ∧ iss ≠ [] := by
  rw [scan_issues] at h
  obtain ⟨sd, hsd, hf⟩ := List.mem_filterMap.mp h
  obtain ⟨sid', files⟩ := sd
  simp only at hf
  by_cases hemp : (sSortBy serialDesc (raw_issues env sid' files)).isEmpty = true
  · rw [if_pos hemp] at hf
    exact Option.noConfusion hf
  · rw [if_neg hemp] at hf
    have hpair := Option.some.inj hf
    have hsid : sid' = sid := congrArg Prod.fst hpair
    have hiss : sSortBy serialDesc (raw_issues env sid' files) = iss :=
      congrArg Prod.snd hpair
    subst hsid
    refine ⟨files, (sSortBy_perm _ _).mem_iff.mp hsd, hiss.symm, ?_⟩
    intro hnil
    rw [hnil] at hiss
    apply hemp
    rw [hiss]
    rfl

/-- C6 (counterexample): with two zips scanned in ascending-serial directory
order and equal months, the month leaf holds them in serial-descending
order — the sort at line 177 — not in directory-scan order. -/
theorem c6_scan_order_counterexample :
    (raw_issues wEnv "s1" ["TQ-0001.zip", "TQ-0002.zip"]).map
        (fun i => i.serial_str) = ["TQ-0001", "TQ-0002"] ∧
    wIssuesS1.map (fun i => i.serial_str) = ["TQ-0002", "TQ-0001"] ∧
    (entriesOf wTreeS1).map (fun i => i.serial_str) =
      ["TQ-0002", "TQ-0001"] ∧
    (["TQ-0002", "TQ-0001"] : List String) ≠ ["TQ-0001", "TQ-0002"] := by
  refine ⟨by rfl, by rfl, by rfl, by decide⟩

/-- C6 (amended): within a month leaf the renderer emits items exactly in
tree order — the item fragments of the whole render are the tree's leaf
entries in order, no sort applied — and that insertion order is the scan's
explicit stable descending sort by serial string, not raw directory
order. -/
theorem c6_leaf_insertion_order (t : Tree α) (ri : α → β) (s : Strings)
    (collapsed : Bool) (ps : List (Part β))
    (h : render_time_groups t ri s collapsed = some ps)
    (env : ScanEnv) (dirs : List (String × List String)) (sid : String)
    (iss : List Issue) (hmem : (sid, iss) ∈ scan_issues env dirs) :
    item_frags ps = (entriesOf t).map ri ∧
    ∃ files, (sid, files) ∈ dirs ∧
      iss.Perm (raw_issues env sid files) ∧
      iss.Pairwise (fun a b => b.serial_str ≤ a.serial_str) ∧
      ∀ sv : String, iss.filter (fun x => decide (x.serial_str = sv)) =
        (raw_issues env sid files).filter
          (fun x => decide (x.serial_str = sv)) := by
  constructor
  · exact item_frags_render_c h
  · obtain ⟨files, hfmem, heq, hne⟩ := scan_issues_mem hmem
    refine ⟨files, hfmem, ?_, ?_, ?_⟩
    · rw [heq]
      exact sSortBy_perm _ _
    · rw [heq]
      exact (sSortBy_pairwise serialDesc_total serialDesc_trans _).imp
        (fun hab => (strLe_iff _ _).mp hab)
    · intro sv
      rw [heq]
      apply sSortBy_filter_stable
      intro a b ha hb
      have ha' : a.serial_str = sv := of_decide_eq_true ha
      have hb' : b.serial_str = sv := of_decide_eq_true hb
      have hsd : serialDesc a b = strLe b.serial_str a.serial_str := rfl
      rw [hsd, hb', ha']
      exact strLe_refl sv

theorem c6_leaf_insertion_order_witness :
    item_frags wPartsS1 = (entriesOf wTreeS1).map
      (fun i : Issue => i.serial_str) :=
  (c6_leaf_insertion_order wTreeS1 (fun i : Issue => i.serial_str) enStrings
    true wPartsS1 (by rfl) wEnv wDirs "s1" wIssuesS1 (by decide)).1

/-- C10: every series in the scan's mapping has a non-empty issue list; a
directory without zip files yields no mapping entry; every index card comes
from a mapped series and shows at least one issue; and a series absent from
the mapping — even one with a catalog entry — gets neither a card nor a
detail page. -/
theorem c10_no_empty_series (env : ScanEnv)
    (dirs : List (String × List String))
    (smap : List (String × Option String))
    (hnd : (keysOf dirs).Nodup) :
    (∀ sid iss, (sid, iss) ∈ scan_issues env dirs → iss ≠ []) ∧
    (∀ sid files, (sid, files) ∈ dirs →
      (∀ f ∈ files, pyEndsWith f ".zip" = false) →
      sid ∉ keysOf (scan_issues env dirs)) ∧
    (∀ c ∈ series_items_of smap (scan_issues env dirs),
      1 ≤ c.count ∧ c.series_id ∈ keysOf (scan_issues env dirs)) ∧
    (∀ sid, sid ∉ keysOf (scan_issues env dirs) →
      (∀ c ∈ series_items_of smap (scan_issues env dirs),
        c.series_id ≠ sid) ∧
      sid ∉ series_page_ids (scan_issues env dirs)) := by
  have hcard : ∀ c ∈ series_items_of smap (scan_issues env dirs),
      1 ≤ c.count ∧ c.series_id ∈ keysOf (scan_issues env dirs) := by
    intro c hc
    rw [series_items_of] at hc
    obtain ⟨sid, hsid, rfl⟩ := List.mem_map.mp hc
    have hk : sid ∈ keysOf (scan_issues env dirs) :=
      (sSortBy_perm _ _).mem_iff.mp hsid
    refine ⟨?_, hk⟩
    cases hl : lookupA (scan_issues env dirs) sid with
    | none => exact absurd hk (lookupA_eq_none.mp hl)
    | some iss =>
        have hmem := mem_of_lookupA hl
        obtain ⟨_, _, _, hne⟩ := scan_issues_mem hmem
        simp only [hl, Option.getD_some]
        exact List.length_pos.mpr hne
  refine ⟨?_, ?_, hcard, ?_⟩
  · intro sid iss h
    obtain ⟨_, _, _, hne⟩ := scan_issues_mem h
    exact hne
  · intro sid files hmem hz hk
    obtain ⟨⟨sid₂, iss⟩, hpmem, hfst⟩ := List.mem_map.mp hk
    simp only at hfst
    subst hfst
    obtain ⟨files', hfmem, heq, hne⟩ := scan_issues_mem hpmem
    have hfiles : files' = files := by
      have h1 := lookupA_of_mem_nodup hnd hfmem
      have h2 := lookupA_of_mem_nodup hnd hmem
      exact Option.some.inj (h1.symm.trans h2)
    subst hfiles
    apply hne
    rw [heq]
    have hraw : raw_issues env sid₂ files' = [] := by
      rw [raw_issues]
      rw [List.filter_eq_nil_iff.mpr ?_]
      · rfl
      · intro f hf
        rw [hz f hf]
        exact Bool.noConfusion
    rw [hraw]
    rfl
  · intro sid hk
    constructor
    · intro c hc hcon
      exact hk (hcon ▸ (hcard c hc).2)
    · intro hcon
      exact hk ((sSortBy_perm _ _).mem_iff.mp hcon)

theorem c10_no_empty_series_witness :
    (∀ sid iss, (sid, iss) ∈ scan_issues wEnv wDirs → iss ≠ []) ∧
    (∀ c ∈ series_items_of wSeriesMap (scan_issues wEnv wDirs),
      c.series_id ≠ "empty1") ∧
    "empty1" ∉ series_page_ids (scan_issues wEnv wDirs) := by
  have h := c10_no_empty_series wEnv wDirs wSeriesMap (by decide)
  have hempty : "empty1" ∉ keysOf (scan_issues wEnv wDirs) := by decide
  exact ⟨h.1, (h.2.2.2 "empty1" hempty).1, (h.2.2.2 "empty1" hempty).2⟩

theorem c9_century_label_witness :
    (century_label 21 enStrings =
      toString (21 : Int) ++ specCenturySuffix 21 ++ " century" ∧
    century_label 21 jaStrings = toString (21 : Int) ++ "世紀") :=
  c9_century_label 21 (by decide)

end NewsGen
